import Mathlib

/-!
Verification development for the hierarchical layout core of the
react-flow-automated-layout repository.

The TypeScript sources are shallowly embedded: JavaScript `Map`s become
association lists (`List (String × α)`, first match wins, insertion order
preserved, as in a JS `Map`), JS `Set`s of ids become `List String` in
insertion order, numbers become `Rat`, optional / possibly-`undefined`
fields become `Option`, and JS truthiness on strings (`""` is falsy) and
numbers (`0` is falsy) is modelled explicitly.  In-place object mutation
(edge endpoint rewrites in `getEdgesOfNodes`, container dimension writes in
`fixParentNodeDimensions`) is modelled by threading the shared node map and
the shared edge array through the functions as explicit state.  Rejection
of the asynchronous layout-engine collaborator is modelled with `Except`.
-/

namespace RFAL

/-- LayoutDirection from LayoutContext.tsx:
`export type LayoutDirection = "DOWN" | "RIGHT" | "LEFT" | "UP"`. -/
inductive LayoutDirection where
  | DOWN | RIGHT | LEFT | UP
deriving DecidableEq, Repr

/-- Direction from HierarchicalLayoutOrganizer.ts:
`export type Direction = 'TB' | 'LR' | 'RL' | 'BT'`. -/
inductive Direction where
  | TB | LR | RL | BT
deriving DecidableEq, Repr

/-- Handle positions from the xyflow `Position` enum (only the four values
used by layoutProviderUtils.ts). -/
inductive HandlePos where
  | top | bottom | left | right
deriving DecidableEq, Repr

/-- The `positionType` values that Dagre.ts reads from `node.data`. -/
inductive PositionType where
  | center | topRight | bottomLeft | bottomRight | topLeft
deriving DecidableEq, Repr

/-- convertDirection from layoutProviderUtils.ts (lines 8-16).  The
TypeScript `default` branch is unreachable for the four-valued union type,
which the exhaustive match reflects. -/
def convertDirection : LayoutDirection → Direction
  | .DOWN => .TB
  | .RIGHT => .LR
  | .UP => .BT
  | .LEFT => .RL

/-- convertDirectionToLayout from layoutProviderUtils.ts (lines 19-27). -/
def convertDirectionToLayout : Direction → LayoutDirection
  | .TB => .DOWN
  | .LR => .RIGHT
  | .BT => .UP
  | .RL => .LEFT

/-- getSourcePosition from layoutProviderUtils.ts (lines 71-79). -/
def getSourcePosition : LayoutDirection → HandlePos
  | .DOWN => .bottom
  | .RIGHT => .right
  | .UP => .top
  | .LEFT => .left

/-- getTargetPosition from layoutProviderUtils.ts (lines 81-89). -/
def getTargetPosition : LayoutDirection → HandlePos
  | .DOWN => .top
  | .RIGHT => .left
  | .UP => .bottom
  | .LEFT => .right

/-- Embedding of an xyflow `Node`, restricted to the fields the embedded
core reads or writes: id, parentId, position, width/height, `measured`,
the width/height entries of `style`, `hidden`, `selected`, the handle
positions, and the `data.layoutDirection` / `data.positionType` entries. -/
structure Node where
  id : String
  parentId : Option String := none
  x : Rat := 0
  y : Rat := 0
  width : Option Rat := none
  height : Option Rat := none
  measured : Option (Rat × Rat) := none
  styleWidth : Option Rat := none
  styleHeight : Option Rat := none
  hidden : Bool := false
  selected : Bool := false
  sourcePosition : Option HandlePos := none
  targetPosition : Option HandlePos := none
  dataLayoutDirection : Option Direction := none
  dataPositionType : Option PositionType := none
deriving DecidableEq, Repr

/-- Embedding of an xyflow `Edge`, restricted to the fields the embedded
core reads or writes: id, source, target, the handles, and the
`data.isTemporary` / `data.originalSource` / `data.originalTarget` entries
written by createGlobalTemporaryEdgesMap. -/
structure Edge where
  id : String
  source : String
  target : String
  sourceHandle : Option String := none
  targetHandle : Option String := none
  isTemporary : Bool := false
  originalSource : Option String := none
  originalTarget : Option String := none
deriving DecidableEq, Repr

/-- A JS `Map<string, Node>` as an association list in insertion order. -/
abbrev NodeMap : Type := List (String × Node)

/-- A JS `Map<string, Set<string>>` (parent id to child-id set) as an
association list; each `Set` is a duplicate-free list in insertion order. -/
abbrev ChildIndex : Type := List (String × List String)

/-- Lookup in an association list, as `Map.prototype.get` (first match). -/
def mapGet {α : Type} (m : List (String × α)) (k : String) : Option α :=
  (m.find? (fun p => p.1 = k)).map (fun p => p.2)

/-- Key-membership test, as `Map.prototype.has`. -/
def mapHas {α : Type} (m : List (String × α)) (k : String) : Bool :=
  (m.find? (fun p => p.1 = k)).isSome

/-- JavaScript truthiness of a possibly-undefined string: `undefined` and
the empty string are falsy. -/
def jsTruthy : Option String → Bool
  | none => false
  | some s => s ≠ ""

/-- Body of the while loop of getAncestorPath (treeUtils.ts lines 153-186).
`current` is the loop variable and `path` is the accumulated result; the
source pushes every id to `visited` and to `path` in lockstep, so `path`
doubles as the visited set.  `fuel` bounds the number of iterations;
`getAncestorPath` supplies more fuel than there are distinct candidate ids,
which `pathAux_stable` shows is enough for the result to be the loop's. -/
def pathAux (m : NodeMap) (key : String) : Nat → String → List String → List String
  | 0, _, path => path
  | fuel + 1, current, path =>
    if current = "" then path
    else if current = key then path ++ [key]
    else if current ∈ path then path
    else
      match mapGet m current with
      | none => path ++ [current, key]
      | some node =>
        match node.parentId with
        | none => path ++ [current, key]
        | some p => if p = "" then path ++ [current, key]
                    else pathAux m key fuel p (path ++ [current])

/-- getAncestorPath from treeUtils.ts (lines 153-186): the path from a node
to the root, the node itself first and the no-parent sentinel appended last,
with early termination on a revisited id. -/
def getAncestorPath (nodeId : String) (m : NodeMap) (key : String) : List String :=
  pathAux m key (m.length + 2) nodeId []

/-- Every id the while loop of getAncestorPath can visit: the starting id
together with every parentId stored in the node map. -/
def candList (m : NodeMap) (start : String) : List String :=
  start :: m.filterMap (fun p => p.2.parentId)

/-- The effective parent of an id under the source conventions: the node's
parentId when it is present and truthy, and the no-parent sentinel when the
node is missing or its parentId is absent or empty. -/
def effParent (m : NodeMap) (key : String) (x : String) : String :=
  match mapGet m x with
  | none => key
  | some n =>
    match n.parentId with
    | none => key
    | some p => if p = "" then key else p

/-- The index-and-value scan of findLCAWithChildren (treeUtils.ts lines
209-215): the first position of the first list whose element also occurs in
the second list, together with that element. -/
def findFirstIdxIn : List String → List String → Option (Nat × String)
  | [], _ => none
  | a :: as, tset =>
    if a ∈ tset then some (0, a)
    else (findFirstIdxIn as tset).map (fun p => (p.1 + 1, p.2))

/-- Array.prototype.indexOf on a list of strings: the index of the first
occurrence, and -1 when the element does not occur. -/
def jsIndexOf : List String → String → Int
  | [], _ => -1
  | a :: as, x =>
    if a = x then 0
    else
      let r := jsIndexOf as x
      if r = -1 then -1 else r + 1

/-- findLCAWithChildren from treeUtils.ts (lines 192-229): the lowest common
ancestor of two ids together with the child of the ancestor on each side.
The source's `if (!lca)` guard is JS truthiness, so an empty-string ancestor
is also rejected. -/
def findLCAWithChildren (s t : String) (m : NodeMap) (key : String) :
    Option String × Option String × Option String :=
  let sA := getAncestorPath s m key
  let tA := getAncestorPath t m key
  match findFirstIdxIn sA tA with
  | none => (none, none, none)
  | some (i, lca) =>
    if lca = "" then (none, none, none)
    else
      let tIdx : Int := jsIndexOf tA lca
      let sourceChild : Option String := if 0 < i then sA.get? (i - 1) else some s
      let targetChild : Option String :=
        if 0 < tIdx then tA.get? (tIdx - 1).toNat else some t
      (some lca, sourceChild, targetChild)

theorem mapGet_mem {α : Type} {m : List (String × α)} {k : String} {v : α}
    (h : mapGet m k = some v) : (k, v) ∈ m := by
  unfold mapGet at h
  cases hf : m.find? (fun p => p.1 = k) with
  | none => simp [hf] at h
  | some q =>
    have hq := List.mem_of_find?_eq_some hf
    have hk := List.find?_some hf
    simp [hf] at h
    have : q.1 = k := by simpa using hk
    cases q with
    | mk a b => subst h; cases this; exact hq

theorem sdiff_card_append {L path : List String} {current : String}
    (hcur : current ∈ L) (h3 : current ∉ path) :
    (L.toFinset \ (path ++ [current]).toFinset).card + 1 =
      (L.toFinset \ path.toFinset).card := by
  have hmem : current ∈ L.toFinset \ path.toFinset := by
    simp [List.mem_toFinset, hcur, h3]
  have hins : (path ++ [current]).toFinset = insert current path.toFinset := by
    ext a
    simp [List.mem_toFinset, List.mem_append, or_comm]
  have hpos : 0 < (L.toFinset \ path.toFinset).card :=
    Finset.card_pos.mpr ⟨current, hmem⟩
  rw [hins, Finset.sdiff_insert, Finset.card_erase_of_mem hmem]
  omega

theorem pathAux_congr (m : NodeMap) (key : String) (L : List String)
    (hL : ∀ q ∈ m, ∀ p, q.2.parentId = some p → p ∈ L) :
    ∀ f g current path, current ∈ L →
      (L.toFinset \ path.toFinset).card < f →
      (L.toFinset \ path.toFinset).card < g →
      pathAux m key f current path = pathAux m key g current path := by
  intro f
  induction f using Nat.strong_induction_on with
  | _ f ih =>
    intro g current path hcur hf hg
    match f, g with
    | 0, _ => omega
    | f + 1, 0 => omega
    | f + 1, g + 1 =>
      simp only [pathAux]
      by_cases h1 : current = ""
      · simp [h1]
      rw [if_neg h1, if_neg h1]
      by_cases h2 : current = key
      · simp [h2]
      rw [if_neg h2, if_neg h2]
      by_cases h3 : current ∈ path
      · simp [h3]
      rw [if_neg h3, if_neg h3]
      cases hget : mapGet m current with
      | none => rfl
      | some node =>
        cases hp : node.parentId with
        | none => simp [hp]
        | some p =>
          simp only [hp]
          by_cases hpe : p = ""
          · simp [hpe]
          rw [if_neg hpe, if_neg hpe]
          have hpL : p ∈ L := hL _ (mapGet_mem hget) p hp
          have hcard := sdiff_card_append hcur h3
          exact ih f (Nat.lt_succ_self f) g p (path ++ [current]) hpL
            (by omega) (by omega)

theorem candList_closed (m : NodeMap) (start : String) :
    ∀ q ∈ m, ∀ p, q.2.parentId = some p → p ∈ candList m start := by
  intro q hq p hp
  unfold candList
  right
  exact List.mem_filterMap.mpr ⟨q, hq, hp⟩

theorem candList_card_lt (m : NodeMap) (start : String) :
    ((candList m start).toFinset \ ([] : List String).toFinset).card < m.length + 2 := by
  have h1 : (candList m start).toFinset.card ≤ (candList m start).length :=
    List.toFinset_card_le _
  have h2 : (candList m start).length ≤ m.length + 1 := by
    unfold candList
    simp only [List.length_cons]
    have := List.length_filterMap_le (fun (p : String × Node) => p.2.parentId) m
    omega
  simp only [List.toFinset_nil, Finset.sdiff_empty]
  omega

/-- The while loop of getAncestorPath is insensitive to any fuel at least
one larger than the node-map size: the embedding computes the loop's value. -/
theorem pathAux_stable (m : NodeMap) (key nodeId : String) (f : Nat)
    (hf : m.length + 2 ≤ f) :
    pathAux m key f nodeId [] = getAncestorPath nodeId m key := by
  unfold getAncestorPath
  apply pathAux_congr m key (candList m nodeId) (candList_closed m nodeId)
  · exact List.mem_cons_self _ _
  · exact lt_of_lt_of_le (candList_card_lt m nodeId) hf
  · exact candList_card_lt m nodeId

theorem pathAux_extends (m : NodeMap) (key : String) :
    ∀ f current path, ∃ t, pathAux m key f current path = path ++ t := by
  intro f
  induction f with
  | zero => exact fun current path => ⟨[], by simp [pathAux]⟩
  | succ f ih =>
    intro current path
    simp only [pathAux]
    by_cases h1 : current = ""
    · exact ⟨[], by simp [h1]⟩
    rw [if_neg h1]
    by_cases h2 : current = key
    · exact ⟨[key], by simp [h2]⟩
    rw [if_neg h2]
    by_cases h3 : current ∈ path
    · exact ⟨[], by simp [h3]⟩
    rw [if_neg h3]
    cases hget : mapGet m current with
    | none => exact ⟨[current, key], rfl⟩
    | some node =>
      cases hp : node.parentId with
      | none => exact ⟨[current, key], by simp [hp]⟩
      | some p =>
        simp only [hp]
        by_cases hpe : p = ""
        · exact ⟨[current, key], by simp [hpe]⟩
        rw [if_neg hpe]
        obtain ⟨t, ht⟩ := ih p (path ++ [current])
        exact ⟨current :: t, by rw [ht]; simp⟩

/-- The successor relation along an ancestor path: each element is followed
by its effective parent. -/
def parentStep (m : NodeMap) (key : String) : String → String → Prop :=
  fun a b => b = effParent m key a

theorem pathAux_chain (m : NodeMap) (key : String) :
    ∀ f current path,
      List.Chain' (parentStep m key) (path ++ [current]) →
      List.Chain' (parentStep m key) (pathAux m key f current path) := by
  intro f
  induction f with
  | zero =>
    intro current path h
    simpa [pathAux] using h.left_of_append
  | succ f ih =>
    intro current path h
    have hpath : List.Chain' (parentStep m key) path := h.left_of_append
    simp only [pathAux]
    by_cases h1 : current = ""
    · simpa [h1] using hpath
    rw [if_neg h1]
    by_cases h2 : current = key
    · rw [if_pos h2]; rw [h2] at h; exact h
    rw [if_neg h2]
    by_cases h3 : current ∈ path
    · simpa [h3] using hpath
    rw [if_neg h3]
    have happ : ∀ z : String, parentStep m key current z →
        List.Chain' (parentStep m key) ((path ++ [current]) ++ [z]) := by
      intro z hz
      rw [List.chain'_append]
      refine ⟨h, List.chain'_singleton z, ?_⟩
      intro x hx y hy
      simp only [List.getLast?_concat, Option.mem_def, Option.some.injEq] at hx
      simp only [List.head?_cons, Option.mem_def, Option.some.injEq] at hy
      subst hx; subst hy; exact hz
    cases hget : mapGet m current with
    | none =>
      have he : effParent m key current = key := by simp [effParent, hget]
      have := happ key (by simp [parentStep, he])
      simpa using this
    | some node =>
      cases hp : node.parentId with
      | none =>
        have he : effParent m key current = key := by simp [effParent, hget, hp]
        have := happ key (by simp [parentStep, he])
        simpa [hp] using this
      | some p =>
        simp only [hp]
        by_cases hpe : p = ""
        · have he : effParent m key current = key := by
            simp [effParent, hget, hp, hpe]
          have := happ key (by simp [parentStep, he])
          simpa [hpe] using this
        rw [if_neg hpe]
        apply ih
        have he : effParent m key current = p := by
          simp [effParent, hget, hp, hpe]
        have := happ p (by simp [parentStep, he])
        simpa using this

theorem pathAux_nodup (m : NodeMap) (key : String) :
    ∀ f current path, path.Nodup → key ∉ path →
      (pathAux m key f current path).Nodup := by
  intro f
  induction f with
  | zero => intro current path h _; simpa [pathAux] using h
  | succ f ih =>
    intro current path h hkey
    simp only [pathAux]
    by_cases h1 : current = ""
    · simpa [h1] using h
    rw [if_neg h1]
    by_cases h2 : current = key
    · rw [if_pos h2]
      simpa [List.nodup_append] using ⟨h, hkey⟩
    rw [if_neg h2]
    by_cases h3 : current ∈ path
    · simpa [h3] using h
    rw [if_neg h3]
    have hterm : (path ++ [current, key]).Nodup := by
      rw [List.nodup_append]
      refine ⟨h, by simp [h2], ?_⟩
      intro x hx hmem
      rcases List.mem_cons.mp hmem with hm | hm
      · subst hm; exact h3 hx
      · simp only [List.mem_singleton] at hm; subst hm; exact hkey hx
    cases hget : mapGet m current with
    | none => exact hterm
    | some node =>
      cases hp : node.parentId with
      | none => simpa [hp] using hterm
      | some p =>
        simp only [hp]
        by_cases hpe : p = ""
        · simpa [hpe] using hterm
        rw [if_neg hpe]
        apply ih
        · simpa [List.nodup_append] using ⟨h, h3⟩
        · simp only [List.mem_append, List.mem_singleton]
          rintro (hk | hk)
          · exact hkey hk
          · exact h2 hk.symm

theorem pathAux_ne_nil_mem (m : NodeMap) (key : String) (hkey : key ≠ "") :
    ∀ f current path, (∀ x ∈ path, x ≠ "") →
      ∀ x ∈ pathAux m key f current path, x ≠ "" := by
  intro f
  induction f with
  | zero => intro current path h; simpa [pathAux] using h
  | succ f ih =>
    intro current path h
    simp only [pathAux]
    by_cases h1 : current = ""
    · simpa [h1] using h
    rw [if_neg h1]
    by_cases h2 : current = key
    · rw [if_pos h2]
      intro x hx
      rcases List.mem_append.mp hx with hx | hx
      · exact h x hx
      · simp only [List.mem_singleton] at hx; subst hx; exact hkey
    rw [if_neg h2]
    by_cases h3 : current ∈ path
    · simpa [h3] using h
    rw [if_neg h3]
    have hterm : ∀ x ∈ path ++ [current, key], x ≠ "" := by
      intro x hx
      rcases List.mem_append.mp hx with hx | hx
      · exact h x hx
      · rcases List.mem_cons.mp hx with hx | hx
        · subst hx; exact h1
        · simp only [List.mem_singleton] at hx; subst hx; exact hkey
    cases hget : mapGet m current with
    | none => exact hterm
    | some node =>
      cases hp : node.parentId with
      | none => simpa [hp] using hterm
      | some p =>
        simp only [hp]
        by_cases hpe : p = ""
        · simpa [hpe] using hterm
        rw [if_neg hpe]
        apply ih
        intro x hx
        rcases List.mem_append.mp hx with hx | hx
        · exact h x hx
        · simp only [List.mem_singleton] at hx; subst hx; exact h1

theorem pathAux_head (m : NodeMap) (key : String) :
    ∀ f nodeId, nodeId ≠ "" → 1 ≤ f →
      (pathAux m key f nodeId []).head? = some nodeId := by
  intro f nodeId h hf
  match f with
  | 0 => omega
  | f + 1 =>
    simp only [pathAux]
    rw [if_neg h]
    by_cases h2 : nodeId = key
    · simp [h2]
    rw [if_neg h2]
    have h3 : nodeId ∉ ([] : List String) := by simp
    rw [if_neg h3]
    cases hget : mapGet m nodeId with
    | none => rfl
    | some node =>
      cases hp : node.parentId with
      | none => simp [hp]
      | some p =>
        simp only [hp]
        by_cases hpe : p = ""
        · simp [hpe]
        rw [if_neg hpe]
        obtain ⟨t, ht⟩ := pathAux_extends m key f p ([] ++ [nodeId])
        rw [ht]
        simp

theorem getAncestorPath_head (m : NodeMap) (key nodeId : String)
    (h : nodeId ≠ "") :
    (getAncestorPath nodeId m key).head? = some nodeId := by
  unfold getAncestorPath
  exact pathAux_head m key (m.length + 2) nodeId h (by omega)

theorem pathAux_last (m : NodeMap) (key : String) (rank : String → Nat)
    (hrank : ∀ id n p, mapGet m id = some n → n.parentId = some p → p ≠ "" →
      rank p < rank id)
    (L : List String)
    (hL : ∀ q ∈ m, ∀ p, q.2.parentId = some p → p ∈ L) :
    ∀ f current path, current ∈ L → current ≠ "" → current ∉ path →
      (L.toFinset \ path.toFinset).card < f →
      (∀ x ∈ path, rank current < rank x) →
      (pathAux m key f current path).getLast? = some key := by
  intro f
  induction f using Nat.strong_induction_on with
  | _ f ih =>
    intro current path hcur h1 h3 hf hrk
    match f with
    | 0 => omega
    | f + 1 =>
      simp only [pathAux]
      rw [if_neg h1]
      by_cases h2 : current = key
      · rw [if_pos h2]
        simp
      rw [if_neg h2, if_neg h3]
      have hterm : (path ++ [current, key]).getLast? = some key := by
        rw [show path ++ [current, key] = (path ++ [current]) ++ [key] by simp]
        simp
      cases hget : mapGet m current with
      | none => exact hterm
      | some node =>
        cases hp : node.parentId with
        | none => simp only [hp]; exact hterm
        | some p =>
          simp only [hp]
          by_cases hpe : p = ""
          · rw [if_pos hpe]; exact hterm
          rw [if_neg hpe]
          have hplt : rank p < rank current := hrank _ _ _ hget hp hpe
          have hcard := sdiff_card_append hcur h3
          apply ih f (Nat.lt_succ_self f) p (path ++ [current])
          · exact hL _ (mapGet_mem hget) p hp
          · exact hpe
          · simp only [List.mem_append, List.mem_singleton]
            rintro (hk | hk)
            · exact absurd hplt (by have := hrk p hk; omega)
            · subst hk; omega
          · omega
          · intro x hx
            rcases List.mem_append.mp hx with hx | hx
            · exact lt_trans hplt (hrk x hx)
            · simp only [List.mem_singleton] at hx; subst hx; exact hplt

theorem getAncestorPath_last (m : NodeMap) (key nodeId : String)
    (rank : String → Nat)
    (hrank : ∀ id n p, mapGet m id = some n → n.parentId = some p → p ≠ "" →
      rank p < rank id)
    (h : nodeId ≠ "") :
    (getAncestorPath nodeId m key).getLast? = some key := by
  unfold getAncestorPath
  apply pathAux_last m key rank hrank (candList m nodeId) (candList_closed m nodeId)
  · exact List.mem_cons_self _ _
  · exact h
  · simp
  · exact candList_card_lt m nodeId
  · simp

theorem getAncestorPath_chain (m : NodeMap) (key nodeId : String) :
    List.Chain' (parentStep m key) (getAncestorPath nodeId m key) := by
  unfold getAncestorPath
  exact pathAux_chain m key _ nodeId [] (by simp)

theorem getAncestorPath_nodup (m : NodeMap) (key nodeId : String) :
    (getAncestorPath nodeId m key).Nodup := by
  unfold getAncestorPath
  exact pathAux_nodup m key _ nodeId [] (by simp) (by simp)

theorem getAncestorPath_of_empty (m : NodeMap) (key : String) :
    getAncestorPath "" m key = [] := by
  unfold getAncestorPath
  cases h : m.length + 2 with
  | zero => simp [pathAux]
  | succ f => simp [pathAux]

theorem getAncestorPath_mem_ne (m : NodeMap) (key : String) (hkey : key ≠ "") :
    ∀ nodeId, ∀ x ∈ getAncestorPath nodeId m key, x ≠ "" := by
  intro nodeId
  unfold getAncestorPath
  exact pathAux_ne_nil_mem m key hkey _ nodeId [] (by simp)

theorem findFirstIdxIn_isSome {sA tA : List String} {x : String}
    (hx : x ∈ sA) (hxt : x ∈ tA) : (findFirstIdxIn sA tA).isSome := by
  induction sA with
  | nil => simp at hx
  | cons a as ih =>
    simp only [findFirstIdxIn]
    by_cases ha : a ∈ tA
    · simp [ha]
    rw [if_neg ha]
    rcases List.mem_cons.mp hx with hx | hx
    · subst hx; exact absurd hxt ha
    · simpa using ih hx

theorem findFirstIdxIn_some {sA tA : List String} {i : Nat} {l : String}
    (h : findFirstIdxIn sA tA = some (i, l)) :
    sA.get? i = some l ∧ l ∈ tA := by
  induction sA generalizing i with
  | nil => simp [findFirstIdxIn] at h
  | cons a as ih =>
    simp only [findFirstIdxIn] at h
    by_cases ha : a ∈ tA
    · rw [if_pos ha] at h
      obtain ⟨h1, h2⟩ := Prod.mk.injEq .. ▸ Option.some.inj h
      subst h1; subst h2
      exact ⟨rfl, ha⟩
    · rw [if_neg ha] at h
      cases hr : findFirstIdxIn as tA with
      | none => rw [hr] at h; simp at h
      | some q =>
        rw [hr] at h
        have h2 : (q.1 + 1, q.2) = (i, l) := by simpa using h
        have hi1 : q.1 + 1 = i := (Prod.mk.injEq .. ▸ h2).1
        have hl1 : q.2 = l := (Prod.mk.injEq .. ▸ h2).2
        subst hl1
        obtain ⟨hg, hm⟩ := ih (i := q.1) (by rw [hr])
        refine ⟨?_, hm⟩
        rw [← hi1]
        simpa using hg

theorem jsIndexOf_spec {l : List String} {x : String} (h : x ∈ l) :
    0 ≤ jsIndexOf l x ∧ l.get? (jsIndexOf l x).toNat = some x := by
  induction l with
  | nil => simp at h
  | cons a as ih =>
    simp only [jsIndexOf]
    by_cases ha : a = x
    · simp [ha]
    rw [if_neg ha]
    have hx : x ∈ as := by
      rcases List.mem_cons.mp h with hh | hh
      · exact absurd hh.symm ha
      · exact hh
    obtain ⟨h0, hg⟩ := ih hx
    have hne : jsIndexOf as x ≠ -1 := by omega
    rw [if_neg hne]
    refine ⟨by omega, ?_⟩
    have : (jsIndexOf as x + 1).toNat = (jsIndexOf as x).toNat + 1 := by omega
    rw [this]
    simpa using hg

theorem mem_of_getLast?_eq {l : List String} {a : String}
    (h : l.getLast? = some a) : a ∈ l := by
  obtain ⟨hne, he⟩ := List.mem_getLast?_eq_getLast (l := l) (x := a)
    (by simp [Option.mem_def, h])
  rw [he]
  exact List.getLast_mem hne

theorem chain_get {R : String → String → Prop} {l : List String}
    (h : List.Chain' R l) {k : Nat} {a b : String}
    (ha : l.get? k = some a) (hb : l.get? (k + 1) = some b) : R a b := by
  obtain ⟨hlt2, hbe⟩ := List.get?_eq_some.mp hb
  obtain ⟨hlt1, hae⟩ := List.get?_eq_some.mp ha
  have hr := List.chain'_iff_get.mp h k (by omega)
  have e1 : l.get ⟨k, hlt1⟩ = a := hae
  have e2 : l.get ⟨k + 1, hlt2⟩ = b := hbe
  rw [show l.get ⟨k, hlt1⟩ = l.get ⟨k, by omega⟩ from rfl] at e1
  rw [e1, e2] at hr
  exact hr

/-- CLAIM C5: for every node lookup table and pair of node ids that both
resolve upward to the sentinel (their ancestor paths end with the nonempty
sentinel key, which holds for every acyclic table and nonempty ids),
findLCAWithChildren returns a non-null lca, and the returned sourceChild and
targetChild are each a direct child (by the effective parentId relation) of
the returned lca, or equal to the source/target node itself when the lca
equals that node. -/
theorem findLCAWithChildren_spec (m : NodeMap) (key s t : String)
    (hkey : key ≠ "")
    (hs : (getAncestorPath s m key).getLast? = some key)
    (ht : (getAncestorPath t m key).getLast? = some key) :
    ∃ l sc tc, findLCAWithChildren s t m key = (some l, some sc, some tc) ∧
      (effParent m key sc = l ∨ (sc = s ∧ l = s)) ∧
      (effParent m key tc = l ∨ (tc = t ∧ l = t)) := by
  have hsne : s ≠ "" := by
    intro he; rw [he, getAncestorPath_of_empty] at hs; simp at hs
  have htne : t ≠ "" := by
    intro he; rw [he, getAncestorPath_of_empty] at ht; simp at ht
  have hks : key ∈ getAncestorPath s m key := mem_of_getLast?_eq hs
  have hkt : key ∈ getAncestorPath t m key := mem_of_getLast?_eq ht
  have hsome := findFirstIdxIn_isSome hks hkt
  obtain ⟨⟨i, l⟩, heq⟩ := Option.isSome_iff_exists.mp hsome
  obtain ⟨hgi, hlt⟩ := findFirstIdxIn_some heq
  have hlne : l ≠ "" :=
    getAncestorPath_mem_ne m key hkey s l (List.get?_mem hgi)
  have hchainS := getAncestorPath_chain m key s
  have hchainT := getAncestorPath_chain m key t
  obtain ⟨htIdx0, htIdxg⟩ := jsIndexOf_spec hlt
  unfold findLCAWithChildren
  simp only [heq, if_neg hlne]
  by_cases hi : 0 < i
  · -- the source child is the path element just before the lca
    have hi1 : i - 1 < (getAncestorPath s m key).length := by
      have := (List.get?_eq_some.mp hgi).1
      omega
    set sc := (getAncestorPath s m key).get ⟨i - 1, hi1⟩ with hsc
    have hgsc : (getAncestorPath s m key).get? (i - 1) = some sc :=
      List.get?_eq_get hi1
    have hstep : parentStep m key sc l := by
      apply chain_get hchainS hgsc
      rw [show i - 1 + 1 = i by omega]
      exact hgi
    by_cases hti : 0 < jsIndexOf (getAncestorPath t m key) l
    · have hti1 : (jsIndexOf (getAncestorPath t m key) l).toNat - 1 <
          (getAncestorPath t m key).length := by
        have := (List.get?_eq_some.mp htIdxg).1
        omega
      set tc := (getAncestorPath t m key).get
        ⟨(jsIndexOf (getAncestorPath t m key) l).toNat - 1, hti1⟩ with htc
      have hgtc : (getAncestorPath t m key).get?
          ((jsIndexOf (getAncestorPath t m key) l).toNat - 1) = some tc :=
        List.get?_eq_get hti1
      have htstep : parentStep m key tc l := by
        apply chain_get hchainT hgtc
        rw [show (jsIndexOf (getAncestorPath t m key) l).toNat - 1 + 1 =
          (jsIndexOf (getAncestorPath t m key) l).toNat by omega]
        exact htIdxg
      refine ⟨l, sc, tc, ?_, Or.inl hstep.symm, Or.inl htstep.symm⟩
      simp only [hi, hti, if_true, if_pos]
      simp [hi, hti]
      exact ⟨by simpa using hgsc, by simpa using hgtc⟩
    · have htieq : jsIndexOf (getAncestorPath t m key) l = 0 := by omega
      have hlt0 : (getAncestorPath t m key).get? 0 = some l := by
        rw [htieq] at htIdxg; simpa using htIdxg
      have hheadt : (getAncestorPath t m key).head? = some t :=
        getAncestorPath_head m key t htne
      have hlt2 : l = t := by
        rw [← List.get?_zero, hlt0] at hheadt
        exact (Option.some.inj hheadt)
      refine ⟨l, sc, t, ?_, Or.inl hstep.symm, Or.inr ⟨rfl, hlt2⟩⟩
      simp [hi, hti]
      simpa using hgsc
  · have hieq : i = 0 := by omega
    have hl0 : (getAncestorPath s m key).get? 0 = some l := hieq ▸ hgi
    have hheads : (getAncestorPath s m key).head? = some s :=
      getAncestorPath_head m key s hsne
    have hls : l = s := by
      rw [← List.get?_zero, hl0] at hheads
      exact Option.some.inj hheads
    by_cases hti : 0 < jsIndexOf (getAncestorPath t m key) l
    · have hti1 : (jsIndexOf (getAncestorPath t m key) l).toNat - 1 <
          (getAncestorPath t m key).length := by
        have := (List.get?_eq_some.mp htIdxg).1
        omega
      set tc := (getAncestorPath t m key).get
        ⟨(jsIndexOf (getAncestorPath t m key) l).toNat - 1, hti1⟩ with htc
      have hgtc : (getAncestorPath t m key).get?
          ((jsIndexOf (getAncestorPath t m key) l).toNat - 1) = some tc :=
        List.get?_eq_get hti1
      have htstep : parentStep m key tc l := by
        apply chain_get hchainT hgtc
        rw [show (jsIndexOf (getAncestorPath t m key) l).toNat - 1 + 1 =
          (jsIndexOf (getAncestorPath t m key) l).toNat by omega]
        exact htIdxg
      refine ⟨l, s, tc, ?_, Or.inr ⟨rfl, hls⟩, Or.inl htstep.symm⟩
      simp [hi, hti]
      simpa using hgtc
    · have htieq : jsIndexOf (getAncestorPath t m key) l = 0 := by omega
      have hlt0 : (getAncestorPath t m key).get? 0 = some l := by
        rw [htieq] at htIdxg; simpa using htIdxg
      have hheadt : (getAncestorPath t m key).head? = some t :=
        getAncestorPath_head m key t htne
      have hlt2 : l = t := by
        rw [← List.get?_zero, hlt0] at hheadt
        exact Option.some.inj hheadt
      refine ⟨l, s, t, ?_, Or.inr ⟨rfl, hls⟩, Or.inr ⟨rfl, hlt2⟩⟩
      simp [hi, hti]

/-- A rank certificate for acyclicity of the parent references: every truthy
parentId stored in the map has strictly smaller rank than its child.  Stated
over the entries of the map so that it is decidable on concrete inputs. -/
def rankOkB (m : NodeMap) (rank : String → Nat) : Bool :=
  m.all (fun q =>
    match q.2.parentId with
    | none => true
    | some p => if p = "" then true else decide (rank p < rank q.1))

theorem rankOkB_spec {m : NodeMap} {rank : String → Nat}
    (h : rankOkB m rank = true) :
    ∀ id n p, mapGet m id = some n → n.parentId = some p → p ≠ "" →
      rank p < rank id := by
  intro id n p hget hp hpe
  have hm := mapGet_mem hget
  have hq := List.all_eq_true.mp h _ hm
  simp only [hp] at hq
  rw [if_neg hpe] at hq
  exact of_decide_eq_true hq

/-- CLAIM C6 (amended): for every node lookup table and node id the
getAncestorPath loop terminates (its fuel embedding is insensitive to any
fuel of at least the map size plus two) and its result is duplicate-free
(each id is visited at most once, the revisit guard) and follows effective
parentId links upward; when additionally the parent references are acyclic
(witnessed by a rank) and the node id is nonempty, the path starts with
the given node id and has the sentinel no-parent marker as its last
element.  The original claim fails for the empty node id, for which the
source's truthiness guard exits at once with the empty path. -/
theorem getAncestorPath_terminates_and_resolves :
    (∀ (m : NodeMap) (key nodeId : String) (f : Nat), m.length + 2 ≤ f →
        pathAux m key f nodeId [] = getAncestorPath nodeId m key) ∧
    (∀ (m : NodeMap) (key nodeId : String),
        (getAncestorPath nodeId m key).Nodup ∧
        List.Chain' (parentStep m key) (getAncestorPath nodeId m key)) ∧
    (∀ (m : NodeMap) (key nodeId : String) (rank : String → Nat),
        rankOkB m rank = true → nodeId ≠ "" →
        (getAncestorPath nodeId m key).head? = some nodeId ∧
        (getAncestorPath nodeId m key).getLast? = some key) := by
  refine ⟨?_, ?_, ?_⟩
  · intro m key nodeId f hf
    exact pathAux_stable m key nodeId f hf
  · intro m key nodeId
    exact ⟨getAncestorPath_nodup m key nodeId, getAncestorPath_chain m key nodeId⟩
  · intro m key nodeId rank hrk hne
    refine ⟨getAncestorPath_head m key nodeId hne, ?_⟩
    exact getAncestorPath_last m key nodeId rank (rankOkB_spec hrk) hne

/-- Counterexample input for CLAIM C6 as frozen: the empty node id over the
(trivially acyclic) empty table yields the empty path, which neither starts
with the given id nor ends with the sentinel. -/
theorem getAncestorPath_empty_id_refutes :
    getAncestorPath "" ([] : NodeMap) "no-parent" = [] ∧
    (getAncestorPath "" ([] : NodeMap) "no-parent").getLast? ≠ some "no-parent" := by
  have h : getAncestorPath "" ([] : NodeMap) "no-parent" = [] := rfl
  exact ⟨h, by rw [h]; simp⟩

/-- Shared concrete example (the scenario of spec section 8): containers A
and B with B inside A, a node x inside B, and a top-level node y. -/
def exNodeA : Node := { id := "A" }

def exNodeB : Node := { id := "B", parentId := some "A" }

def exNodeX : Node := { id := "x", parentId := some "B" }

def exNodeY : Node := { id := "y" }

def exMap : NodeMap := [("A", exNodeA), ("B", exNodeB), ("x", exNodeX), ("y", exNodeY)]

/-- A rank certificate for the acyclicity of exMap. -/
def exRank : String → Nat :=
  fun id => if id = "x" then 3 else if id = "B" then 2 else 1

theorem getAncestorPath_terminates_witness :
    pathAux exMap "no-parent" 10 "x" [] = getAncestorPath "x" exMap "no-parent" ∧
    ((getAncestorPath "x" exMap "no-parent").head? = some "x" ∧
      (getAncestorPath "x" exMap "no-parent").getLast? = some "no-parent") :=
  ⟨getAncestorPath_terminates_and_resolves.1 exMap "no-parent" "x" 10 (by decide),
    getAncestorPath_terminates_and_resolves.2.2 exMap "no-parent" "x" exRank
      (by decide) (by decide)⟩

theorem findLCAWithChildren_spec_witness :
    ∃ l sc tc,
      findLCAWithChildren "x" "y" exMap "no-parent" = (some l, some sc, some tc) ∧
      (effParent exMap "no-parent" sc = l ∨ (sc = "x" ∧ l = "x")) ∧
      (effParent exMap "no-parent" tc = l ∨ (tc = "y" ∧ l = "y")) :=
  findLCAWithChildren_spec exMap "no-parent" "x" "y" (by decide) (by decide) (by decide)

/-- Append a value to the list stored under a key, as the source's
`if (!map.has(lca)) map.set(lca, []); map.get(lca)!.push(tempEdge)`:
a fresh key is appended at the end (JS Map insertion order). -/
def mapPush (m : List (String × List Edge)) (k : String) (v : Edge) :
    List (String × List Edge) :=
  match m with
  | [] => [(k, [v])]
  | (k2, vs) :: rest =>
    if k2 = k then (k2, vs ++ [v]) :: rest else (k2, vs) :: mapPush rest k v

/-- The synthetic edge built for one original edge by
createGlobalTemporaryEdgesMap: a clone of the edge with the two entry ids as
endpoints, a fresh id derived from the original id and the ancestor id, and
data tagging it temporary and recording the original endpoints. -/
def mkTempEdge (e : Edge) (lca sc tc : String) : Edge :=
  { e with
    source := sc
    target := tc
    id := "temp_" ++ e.id ++ "_" ++ lca
    isTemporary := true
    originalSource := some e.source
    originalTarget := some e.target }

/-- The edge loop of createGlobalTemporaryEdgesMap, with the map under
construction threaded as an accumulator.  The guard mirrors the source's
`if (lca && sourceChild && targetChild && sourceChild !== targetChild)`
(JS truthiness: non-null and nonempty). -/
def tempEdgesFold (m : NodeMap) (key : String) :
    List Edge → List (String × List Edge) → List (String × List Edge)
  | [], acc => acc
  | e :: rest, acc =>
    match findLCAWithChildren e.source e.target m key with
    | (some lca, some sc, some tc) =>
      if lca ≠ "" ∧ sc ≠ "" ∧ tc ≠ "" ∧ sc ≠ tc then
        tempEdgesFold m key rest (mapPush acc lca (mkTempEdge e lca sc tc))
      else tempEdgesFold m key rest acc
    | _ => tempEdgesFold m key rest acc

/-- createGlobalTemporaryEdgesMap from src/unnamed/part_008: one pass over
all edges producing, per lowest-common-ancestor container, the list of
synthetic edges to consume when that container is laid out. -/
def createGlobalTemporaryEdgesMap (edges : List Edge) (m : NodeMap)
    (key : String) : List (String × List Edge) :=
  tempEdgesFold m key edges []

theorem mapGet_cons {α : Type} (k2 : String) (v2 : α)
    (rest : List (String × α)) (l : String) :
    mapGet ((k2, v2) :: rest) l = if k2 = l then some v2 else mapGet rest l := by
  by_cases h : k2 = l
  · subst h; simp [mapGet, List.find?]
  · simp [mapGet, List.find?, h]

theorem mapGet_mapPush (acc : List (String × List Edge)) (k : String)
    (v : Edge) (l : String) :
    (mapGet (mapPush acc k v) l).getD [] =
      if k = l then (mapGet acc l).getD [] ++ [v]
      else (mapGet acc l).getD [] := by
  induction acc with
  | nil =>
    simp only [mapPush, mapGet_cons]
    by_cases hk : k = l
    · simp [hk, mapGet]
    · simp [hk, mapGet]
  | cons q rest ih =>
    obtain ⟨k2, vs⟩ := q
    simp only [mapPush]
    by_cases h2 : k2 = k
    · subst h2
      rw [if_pos rfl, mapGet_cons, mapGet_cons]
      by_cases hk : k2 = l
      · simp [hk]
      · simp [hk]
    · rw [if_neg h2, mapGet_cons, mapGet_cons]
      by_cases hk : k2 = l
      · have hne : k ≠ k2 := fun he => h2 he.symm
        subst hk
        simp [hne]
      · simp [hk, ih]

theorem tempEdgesFold_get (m : NodeMap) (key l : String) :
    ∀ (edges : List Edge) (acc : List (String × List Edge)),
      (mapGet (tempEdgesFold m key edges acc) l).getD [] =
        (mapGet acc l).getD [] ++
          edges.filterMap (fun e =>
            match findLCAWithChildren e.source e.target m key with
            | (some lca, some sc, some tc) =>
              if lca = l ∧ lca ≠ "" ∧ sc ≠ "" ∧ tc ≠ "" ∧ sc ≠ tc then
                some (mkTempEdge e lca sc tc)
              else none
            | _ => none) := by
  intro edges
  induction edges with
  | nil => intro acc; simp [tempEdgesFold]
  | cons e rest ih =>
    intro acc
    rcases hr : findLCAWithChildren e.source e.target m key with ⟨o1, o2, o3⟩
    cases o1 with
    | none => simp [tempEdgesFold, hr, ih]
    | some lca =>
      cases o2 with
      | none => simp [tempEdgesFold, hr, ih]
      | some sc =>
        cases o3 with
        | none => simp [tempEdgesFold, hr, ih]
        | some tc =>
          simp only [tempEdgesFold, hr, List.filterMap_cons]
          by_cases hg : lca ≠ "" ∧ sc ≠ "" ∧ tc ≠ "" ∧ sc ≠ tc
          · rw [if_pos hg]
            by_cases hl : lca = l
            · subst hl
              rw [if_pos ⟨rfl, hg⟩, ih, mapGet_mapPush, if_pos rfl]
              simp
            · rw [if_neg (fun hc => hl hc.1), ih, mapGet_mapPush, if_neg hl]
          · rw [if_neg hg,
              if_neg (fun hc => hg ⟨hc.2.1, hc.2.2.1, hc.2.2.2.1, hc.2.2.2.2⟩)]
            exact ih acc

/-- CLAIM C2: for every edge list and node lookup table, the bucket that
createGlobalTemporaryEdgesMap stores under any ancestor id l holds, in
order, exactly one synthetic edge for each edge whose LCA resolution yields
the (truthy) ancestor l and two distinct (truthy) entry ids; the synthetic
edge carries the two entry ids as source and target, an id freshly derived
from the original edge id and the ancestor id, and data recording the
original source and target.  An edge with identical entry ids or with no
resolved ancestor contributes no synthetic edge to any bucket. -/
theorem createGlobalTemporaryEdgesMap_spec (edges : List Edge) (m : NodeMap)
    (key l : String) :
    (mapGet (createGlobalTemporaryEdgesMap edges m key) l).getD [] =
      edges.filterMap (fun e =>
        match findLCAWithChildren e.source e.target m key with
        | (some lca, some sc, some tc) =>
          if lca = l ∧ lca ≠ "" ∧ sc ≠ "" ∧ tc ≠ "" ∧ sc ≠ tc then
            some { e with
              source := sc
              target := tc
              id := "temp_" ++ e.id ++ "_" ++ lca
              isTemporary := true
              originalSource := some e.source
              originalTarget := some e.target }
          else none
        | _ => none) := by
  unfold createGlobalTemporaryEdgesMap
  rw [tempEdgesFold_get]
  simp [mapGet, mkTempEdge]

/-- Deduplication keeping first occurrences, as
`Array.from(new Set([...]))` in the source. -/
def dedupFirstAux : List String → List String → List String
  | [], _ => []
  | a :: rest, seen =>
    if a ∈ seen then dedupFirstAux rest seen
    else a :: dedupFirstAux rest (a :: seen)

/-- Order-preserving first-occurrence deduplication of a list of ids. -/
def dedupFirst (l : List String) : List String :=
  dedupFirstAux l []

theorem mem_dedupFirstAux {a : String} :
    ∀ {l seen : List String}, a ∈ dedupFirstAux l seen ↔ (a ∈ l ∧ a ∉ seen) := by
  intro l
  induction l with
  | nil => intro seen; simp [dedupFirstAux]
  | cons b rest ih =>
    intro seen
    simp only [dedupFirstAux]
    by_cases hb : b ∈ seen
    · rw [if_pos hb, ih]
      constructor
      · rintro ⟨h1, h2⟩
        exact ⟨List.mem_cons_of_mem _ h1, h2⟩
      · rintro ⟨h1, h2⟩
        rcases List.mem_cons.mp h1 with h1 | h1
        · subst h1; exact absurd hb h2
        · exact ⟨h1, h2⟩
    · rw [if_neg hb]
      constructor
      · intro h
        rcases List.mem_cons.mp h with h | h
        · subst h; exact ⟨List.mem_cons_self _ _, hb⟩
        · obtain ⟨h1, h2⟩ := ih.mp h
          refine ⟨List.mem_cons_of_mem _ h1, ?_⟩
          intro hc
          exact h2 (List.mem_cons_of_mem _ hc)
      · rintro ⟨h1, h2⟩
        rcases List.mem_cons.mp h1 with h1 | h1
        · subst h1; exact List.mem_cons_self _ _
        · by_cases hab : a = b
          · subst hab; exact List.mem_cons_self _ _
          · refine List.mem_cons_of_mem _ (ih.mpr ⟨h1, ?_⟩)
            intro hc
            rcases List.mem_cons.mp hc with hc | hc
            · exact hab hc
            · exact h2 hc

theorem mem_dedupFirst {a : String} {l : List String} :
    a ∈ dedupFirst l ↔ a ∈ l := by
  unfold dedupFirst
  rw [mem_dedupFirstAux]
  simp

/-- filterSelectedParentNodes from
src/src/LayoutContext/utils/filterSelectedParentNodes.ts (lines 12-53):
resolves a selection of node ids to the parent-container ids to re-lay-out.
Step 1 adds the parent of every selected node (JS truthiness filter), step 2
keeps only ids that are keys of the parent index, step 3 drops ids whose own
truthy parent is also among the surviving candidates, and the final block
prepends the hard-coded "no-parent" sentinel when it is absent. -/
def filterSelectedParentNodes (selectedNodeIds : List String)
    (parentIdWithNodes : List (String × List Node))
    (nodeIdWithNode : NodeMap) : List String :=
  if selectedNodeIds = [] then []
  else
    let parentIdsOfSelection := selectedNodeIds.filterMap
      (fun id =>
        match mapGet nodeIdWithNode id with
        | none => none
        | some n =>
          match n.parentId with
          | none => none
          | some p => if p = "" then none else some p)
    let effectiveSelectedIds := dedupFirst (selectedNodeIds ++ parentIdsOfSelection)
    let parentNodeIds := effectiveSelectedIds.filter
      (fun id => mapHas parentIdWithNodes id)
    if parentNodeIds = [] then ["no-parent"]
    else
      let filteredParentIds := parentNodeIds.filter
        (fun parentId =>
          match mapGet nodeIdWithNode parentId with
          | none => true
          | some node =>
            match node.parentId with
            | none => true
            | some p => if p = "" then true else ¬ (p ∈ parentNodeIds))
      if "no-parent" ∈ filteredParentIds then filteredParentIds
      else "no-parent" :: filteredParentIds

/-- Concrete selection-filter scenario of CLAIM C7: a top-level container
root, its child container A, and a leaf c inside A. -/
def selNodeRoot : Node := { id := "root" }

def selNodeA : Node := { id := "A", parentId := some "root" }

def selNodeC : Node := { id := "c", parentId := some "A" }

def selParentIndex : List (String × List Node) :=
  [("root", [selNodeA]), ("A", [selNodeC])]

def selNodeMap : NodeMap :=
  [("root", selNodeRoot), ("A", selNodeA), ("c", selNodeC)]

/-- Counterexample input for CLAIM C7 as frozen: selecting root and its
descendant container A does exclude A, but the result is
["no-parent", "root"] because the filter always prepends the sentinel,
not the claimed [root]. -/
theorem filterSelectedParentNodes_sentinel_refutes :
    filterSelectedParentNodes ["root", "A"] selParentIndex selNodeMap =
      ["no-parent", "root"] ∧
    filterSelectedParentNodes ["root", "A"] selParentIndex selNodeMap ≠
      ["root"] := by
  refine ⟨rfl, ?_⟩
  intro h
  rw [show filterSelectedParentNodes ["root", "A"] selParentIndex selNodeMap =
    ["no-parent", "root"] from rfl] at h
  simp at h

/-- CLAIM C7 (amended): for every selection containing a node D whose
resolved node has a truthy parent that is itself a key of the parent index,
and whose id is not the literal sentinel string, the Selection Filter's
result excludes D; in particular, selecting both root and root's child A
(where A is a container whose parentId is root) yields
["no-parent", "root"], the sentinel being prepended — not [root, A], and
not the bare [root] of the original claim. -/
theorem filterSelectedParentNodes_excludes_descendant :
    (∀ (selectedNodeIds : List String) (pIdx : List (String × List Node))
        (nmap : NodeMap) (d p : String) (n : Node),
        d ∈ selectedNodeIds →
        mapGet nmap d = some n →
        n.parentId = some p →
        p ≠ "" →
        mapHas pIdx p = true →
        d ≠ "no-parent" →
        d ∉ filterSelectedParentNodes selectedNodeIds pIdx nmap) ∧
    filterSelectedParentNodes ["root", "A"] selParentIndex selNodeMap =
      ["no-parent", "root"] := by
  constructor
  · intro selectedNodeIds pIdx nmap d p n hsel hn hp hpe hkey hd
    unfold filterSelectedParentNodes
    rw [if_neg (List.ne_nil_of_mem hsel)]
    set parentIdsOfSelection := selectedNodeIds.filterMap
      (fun id =>
        match mapGet nmap id with
        | none => none
        | some n =>
          match n.parentId with
          | none => none
          | some p => if p = "" then none else some p) with hpsel
    set effectiveSelectedIds :=
      dedupFirst (selectedNodeIds ++ parentIdsOfSelection) with heff
    set parentNodeIds := effectiveSelectedIds.filter
      (fun id => mapHas pIdx id) with hpn
    by_cases hempty : parentNodeIds = []
    · rw [if_pos hempty]
      simp [hd]
    rw [if_neg hempty]
    have hpmem : p ∈ parentNodeIds := by
      rw [hpn]
      apply List.mem_filter.mpr
      refine ⟨?_, hkey⟩
      rw [heff, mem_dedupFirst]
      apply List.mem_append.mpr
      right
      rw [hpsel]
      apply List.mem_filterMap.mpr
      exact ⟨d, hsel, by simp [hn, hp, hpe]⟩
    have hdnot : d ∉ parentNodeIds.filter
        (fun parentId =>
          match mapGet nmap parentId with
          | none => true
          | some node =>
            match node.parentId with
            | none => true
            | some p => if p = "" then true else ¬ (p ∈ parentNodeIds)) := by
      intro hc
      have := (List.mem_filter.mp hc).2
      simp only [hn, hp] at this
      rw [if_neg hpe] at this
      simp only [decide_eq_true_eq] at this
      exact this hpmem
    by_cases hnp : "no-parent" ∈ parentNodeIds.filter
        (fun parentId =>
          match mapGet nmap parentId with
          | none => true
          | some node =>
            match node.parentId with
            | none => true
            | some p => if p = "" then true else ¬ (p ∈ parentNodeIds))
    · rw [if_pos hnp]; exact hdnot
    · rw [if_neg hnp]
      intro hc
      rcases List.mem_cons.mp hc with hc | hc
      · exact hd hc
      · exact hdnot hc
  · rfl

/-- Hierarchy tree forest from treeUtils.ts.  The source's type is
`TreeNode[]` with `TreeNode = {id, node, children, depth}`; the record
fields are inlined into the list constructor here (a cons cell carries one
tree node's fields and the remaining siblings), which keeps every
recursion over the nested tree structure structural. -/
inductive TreeNodes where
  | nil : TreeNodes
  | cons (id : String) (node : Node) (children : TreeNodes) (depth : Nat)
      (rest : TreeNodes) : TreeNodes

/-- Number of tree nodes at the top level (the source's Array length). -/
def TreeNodes.length : TreeNodes → Nat
  | .nil => 0
  | .cons _ _ _ _ rest => rest.length + 1

/-- Concatenation of two sibling lists. -/
def TreeNodes.append : TreeNodes → TreeNodes → TreeNodes
  | .nil, g => g
  | .cons i n cs d rest, g => .cons i n cs d (rest.append g)

/-- buildTreeRecursively from treeUtils.ts (lines 48-77), with the shared
`processedNodes` set threaded as explicit state.  The source's upfront
`treeNodeMap` shell pass is observationally redundant (each shell is only
read after the same has/get checks succeed and is populated exactly once),
so tree nodes are constructed directly; the source's null result is the
empty sibling list, a built node a singleton.  The inner fold is the child
loop (lines 63-74): each child id that is an index key and resolves in the
node lookup is built recursively and appended when non-null.  `fuel`
bounds the recursion depth; buildNodeTree passes one more than the number
of index entries, which the processed-set growth makes sufficient (each
recursion step records one still-unprocessed index key before
descending). -/
def buildTreeRec (idx : ChildIndex) (nmap : NodeMap) :
    Nat → String → Nat → List String → (TreeNodes × List String)
  | 0, _, _, processed => (.nil, processed)
  | fuel + 1, nodeId, depth, processed =>
    if nodeId ∈ processed then (.nil, processed)
    else if ¬ mapHas idx nodeId then (.nil, processed)
    else
      match mapGet nmap nodeId with
      | none => (.nil, processed)
      | some node =>
        let childIds := (mapGet idx nodeId).getD []
        let r := childIds.foldl
          (fun (st : TreeNodes × List String) c =>
            if mapHas idx c ∧ (mapGet nmap c).isSome then
              let b := buildTreeRec idx nmap fuel c (depth + 1) st.2
              (st.1.append b.1, b.2)
            else st)
          (.nil, processed ++ [nodeId])
        (.cons nodeId node r.1 depth .nil, r.2)

/-- The root loop of buildNodeTree (treeUtils.ts lines 82-94): every index
key whose node resolves and has a falsy or sentinel parentId starts a
recursive build at depth 0; the shared processed set is threaded through. -/
def rootsLoop (idx : ChildIndex) (nmap : NodeMap) (key : String) (fuel : Nat) :
    List (String × List String) → List String → (TreeNodes × List String)
  | [], processed => (.nil, processed)
  | (id, _) :: rest, processed =>
    match mapGet nmap id with
    | none => rootsLoop idx nmap key fuel rest processed
    | some node =>
      if node.parentId = none ∨ node.parentId = some "" ∨
          node.parentId = some key then
        let b := buildTreeRec idx nmap fuel id 0 processed
        let r := rootsLoop idx nmap key fuel rest b.2
        (b.1.append r.1, r.2)
      else rootsLoop idx nmap key fuel rest processed

/-- buildNodeTree from treeUtils.ts (lines 23-97): the forest of hierarchy
tree nodes built from the parent-to-children index and the node lookup. -/
def buildNodeTree (idx : ChildIndex) (nmap : NodeMap)
    (key : String := "no-parent") : TreeNodes :=
  (rootsLoop idx nmap key (idx.length + 1) idx []).1

/-- Well-formedness of a hierarchy forest at a given depth over an index
and node lookup: every member is an index key resolving in the lookup, its
depth annotation is the given one at the top level, and each level of
children is annotated one deeper. -/
inductive GoodTree (idx : ChildIndex) (nmap : NodeMap) : Nat → TreeNodes → Prop where
  | nil : ∀ d, GoodTree idx nmap d .nil
  | cons : ∀ (i : String) (n : Node) (children : TreeNodes) (d : Nat)
      (rest : TreeNodes),
      mapHas idx i = true →
      mapGet nmap i = some n →
      GoodTree idx nmap (d + 1) children →
      GoodTree idx nmap d rest →
      GoodTree idx nmap d (.cons i n children d rest)

/-- The root condition of the forest: every top-level node's parentId is
absent, empty, or the sentinel. -/
def RootsOk (key : String) : TreeNodes → Prop
  | .nil => True
  | .cons _ n _ _ rest =>
    (n.parentId = none ∨ n.parentId = some "" ∨ n.parentId = some key) ∧
      RootsOk key rest

theorem goodTree_append {idx : ChildIndex} {nmap : NodeMap} :
    ∀ {f : TreeNodes} {d : Nat} {g : TreeNodes},
      GoodTree idx nmap d f → GoodTree idx nmap d g →
      GoodTree idx nmap d (f.append g) := by
  intro f
  induction f with
  | nil => intro d g hf hg; simpa [TreeNodes.append] using hg
  | cons i n cs dd rest ihc ihr =>
    intro d g hf hg
    cases hf with
    | cons _ _ _ _ _ h1 h2 h3 h4 =>
      exact GoodTree.cons i n cs dd (rest.append g) h1 h2 h3 (ihr h4 hg)

theorem buildTreeRec_good (idx : ChildIndex) (nmap : NodeMap) :
    ∀ fuel nodeId depth processed,
      GoodTree idx nmap depth (buildTreeRec idx nmap fuel nodeId depth processed).1 := by
  intro fuel
  induction fuel with
  | zero => intro nodeId depth processed; exact GoodTree.nil depth
  | succ f ih =>
    intro nodeId depth processed
    simp only [buildTreeRec]
    by_cases h1 : nodeId ∈ processed
    · rw [if_pos h1]; exact GoodTree.nil _
    rw [if_neg h1]
    by_cases h2 : mapHas idx nodeId
    · rw [if_neg (by simpa using h2)]
      cases hget : mapGet nmap nodeId with
      | none => exact GoodTree.nil _
      | some node =>
        have hfold : ∀ (l : List String) (st : TreeNodes × List String),
            GoodTree idx nmap (depth + 1) st.1 →
            GoodTree idx nmap (depth + 1)
              (l.foldl (fun (st : TreeNodes × List String) c =>
                if mapHas idx c ∧ (mapGet nmap c).isSome then
                  let b := buildTreeRec idx nmap f c (depth + 1) st.2
                  (st.1.append b.1, b.2)
                else st) st).1 := by
          intro l
          induction l with
          | nil => intro st hst; exact hst
          | cons c0 restl ihl =>
            intro st hst
            rw [List.foldl_cons]
            apply ihl
            by_cases hc : mapHas idx c0 ∧ (mapGet nmap c0).isSome
            · rw [if_pos hc]
              exact goodTree_append hst (ih c0 (depth + 1) st.2)
            · rw [if_neg hc]; exact hst
        exact GoodTree.cons nodeId node _ depth _ h2 hget
          (hfold _ (.nil, processed ++ [nodeId]) (GoodTree.nil _))
          (GoodTree.nil _)
    · rw [if_pos (by simpa using h2)]; exact GoodTree.nil _

theorem rootsOk_append {key : String} :
    ∀ {f g : TreeNodes}, RootsOk key f → RootsOk key g →
      RootsOk key (f.append g) := by
  intro f
  induction f with
  | nil => intro g hf hg; simpa [TreeNodes.append] using hg
  | cons i n cs d rest ihc ihr =>
    intro g hf hg
    exact ⟨hf.1, ihr hf.2 hg⟩

theorem buildTreeRec_singleton_roots (idx : ChildIndex) (nmap : NodeMap)
    (key : String) :
    ∀ fuel nodeId depth processed node,
      mapGet nmap nodeId = some node →
      (node.parentId = none ∨ node.parentId = some "" ∨
        node.parentId = some key) →
      RootsOk key (buildTreeRec idx nmap fuel nodeId depth processed).1 := by
  intro fuel nodeId depth processed node hget hcond
  match fuel with
  | 0 => exact trivial
  | f + 1 =>
    simp only [buildTreeRec]
    by_cases h1 : nodeId ∈ processed
    · rw [if_pos h1]; exact trivial
    rw [if_neg h1]
    by_cases h2 : mapHas idx nodeId
    · rw [if_neg (by simpa using h2)]
      rw [hget]
      exact ⟨hcond, trivial⟩
    · rw [if_pos (by simpa using h2)]; exact trivial

theorem rootsLoop_good (idx : ChildIndex) (nmap : NodeMap) (key : String)
    (fuel : Nat) :
    ∀ (entries : List (String × List String)) (processed : List String),
      GoodTree idx nmap 0 (rootsLoop idx nmap key fuel entries processed).1 ∧
      RootsOk key (rootsLoop idx nmap key fuel entries processed).1 := by
  intro entries
  induction entries with
  | nil =>
    intro processed
    exact ⟨GoodTree.nil 0, trivial⟩
  | cons q rest ih =>
    obtain ⟨id, v⟩ := q
    intro processed
    simp only [rootsLoop]
    cases hget : mapGet nmap id with
    | none => exact ih processed
    | some node =>
      simp only []
      by_cases hcond : node.parentId = none ∨ node.parentId = some "" ∨
          node.parentId = some key
      · rw [if_pos hcond]
        refine ⟨goodTree_append (buildTreeRec_good idx nmap fuel id 0 processed)
            (ih _).1, ?_⟩
        exact rootsOk_append
          (buildTreeRec_singleton_roots idx nmap key fuel id 0 processed node
            hget hcond)
          (ih _).2
      · rw [if_neg hcond]
        exact ih processed

/-- CLAIM C8 (amended): for every parent-to-children index and node lookup
table, every member of the forest returned by buildNodeTree (roots and all
nested tree nodes) is an id that appears as a key in the index — with a
possibly empty child set — and resolves in the node lookup, the depth
annotation is 0 at the roots and increases by one per level (GoodTree at
depth 0), and every root's node has a parentId that is absent, empty, or
equal to the sentinel.  The frozen claim's requirements that members have
a non-empty child set (so that leaves never appear) and that every
qualifying id appears are refuted: an index key with an empty child set is
built as a childless member, and on cyclic or inconsistent input a
qualifying id can be absent from the forest. -/
theorem buildNodeTree_spec (idx : ChildIndex) (nmap : NodeMap) (key : String) :
    GoodTree idx nmap 0 (buildNodeTree idx nmap key) ∧
    RootsOk key (buildNodeTree idx nmap key) :=
  rootsLoop_good idx nmap key (idx.length + 1) idx []

/-- Index and lookup for the CLAIM C8 counterexample: a single node A that
is an index key with an empty child set. -/
def emptyChildIdx : ChildIndex := [("A", [])]

def emptyChildMap : NodeMap := [("A", exNodeA)]

/-- Counterexample input for CLAIM C8 as frozen: the id A is a key of the
index with an EMPTY child set, so per the claim it must not appear in the
forest (leaf nodes never appear); the code returns it as a childless
member. -/
theorem buildNodeTree_empty_childset_refutes :
    buildNodeTree emptyChildIdx emptyChildMap "no-parent" =
      TreeNodes.cons "A" exNodeA .nil 0 .nil ∧
    mapGet emptyChildIdx "A" = some [] := ⟨rfl, rfl⟩

theorem filterSelectedParentNodes_excludes_witness :
    ("A" ∉ filterSelectedParentNodes ["root", "A"] selParentIndex selNodeMap) ∧
    filterSelectedParentNodes ["root", "A"] selParentIndex selNodeMap =
      ["no-parent", "root"] :=
  ⟨filterSelectedParentNodes_excludes_descendant.1 ["root", "A"] selParentIndex
      selNodeMap "A" "root" selNodeA (by decide) rfl rfl (by decide) rfl
      (by decide),
    filterSelectedParentNodes_excludes_descendant.2⟩

/-- Result record of the layout-engine contract (Dagre.ts LayoutResult). -/
structure LayoutResult where
  nodes : List Node
  edges : List Edge
  width : Rat
  height : Rat
deriving DecidableEq, Repr

/-- Per-edge ranking options handed to dagre (Dagre.ts lines 60-77). -/
structure DagreEdgeOptions where
  constraint : Bool
  minlen : Nat
deriving DecidableEq, Repr

/-- The graph handed to the external dagre library: layout configuration
(Dagre.ts lines 29-38), the node boxes, and the edges with options. -/
structure DagreGraphData where
  rankdir : Direction
  marginx : Rat
  marginy : Rat
  nodesep : Rat
  ranksep : Rat
  edgesep : Rat
  ranker : String
  nodes : List (String × Rat × Rat)
  edges : List (String × String × DagreEdgeOptions)

/-- The answer of the external dagre library: a center position per node id
and the overall graph size.  dagre.layout is an external black box, so it
enters the embedding as an oracle producing this record. -/
structure DagreOutput where
  pos : String → Rat × Rat
  width : Rat
  height : Rat

/-- JavaScript `Number(x) || d`: undefined and zero fall back to the
default (Dagre.ts lines 50-51). -/
def jsNumOr (o : Option Rat) (d : Rat) : Rat :=
  match o with
  | none => d
  | some v => if v = 0 then d else v

/-- calculateLayoutWithDagre from Dagre.ts (lines 16-125), parameterized by
the external dagre layout computation as an oracle.  Hidden nodes are
filtered out unless includeHidden; an empty remainder short-circuits before
the graph is ever built or the oracle consulted; otherwise node boxes use
style dimensions with JS-falsy fallback to the defaults, edges carry the
port-aware constraint options, and the oracle's center positions are mapped
back to corner positions according to data.positionType. -/
def calculateLayoutWithDagre (oracle : DagreGraphData → DagreOutput)
    (nodes : List Node) (edges : List Edge) (direction : Direction)
    (margin : Rat) (nodeSpacing : Rat) (layerSpacing : Rat)
    (defaultNodeWidth : Rat) (defaultNodeHeight : Rat)
    (includeHidden : Bool) : LayoutResult :=
  let nodesToLayout :=
    if includeHidden then nodes else nodes.filter (fun n => ¬ n.hidden)
  if nodesToLayout.length = 0 then
    { nodes := [], edges := [], width := 0, height := 0 }
  else
    let graphNodes := nodesToLayout.map (fun n =>
      (n.id, jsNumOr n.styleWidth defaultNodeWidth,
        jsNumOr n.styleHeight defaultNodeHeight))
    let graphEdges := edges.map (fun e =>
      let opts : DagreEdgeOptions :=
        if e.sourceHandle = some "right" ∧ e.targetHandle = some "left" then
          { constraint := false, minlen := 1 }
        else if e.sourceHandle = some "bottom" ∧ e.targetHandle = some "top" then
          { constraint := true, minlen := 1 }
        else { constraint := true, minlen := 2 }
      (e.source, e.target, opts))
    let out := oracle
      { rankdir := direction
        marginx := margin
        marginy := margin
        nodesep := nodeSpacing
        ranksep := layerSpacing
        edgesep := max 20 (nodeSpacing / 4)
        ranker := "tight-tree"
        nodes := graphNodes
        edges := graphEdges }
    let srcPos := getSourcePosition (convertDirectionToLayout direction)
    let tgtPos := getTargetPosition (convertDirectionToLayout direction)
    let newNodes := nodesToLayout.map (fun n =>
      let w := jsNumOr n.styleWidth defaultNodeWidth
      let h := jsNumOr n.styleHeight defaultNodeHeight
      let c := out.pos n.id
      let base := { n with
        sourcePosition := some srcPos
        targetPosition := some tgtPos
        selected := false }
      match n.dataPositionType with
      | some .center => { base with x := c.1, y := c.2 }
      | some .topRight => { base with x := c.1 + w / 2, y := c.2 - h / 2 }
      | some .bottomLeft => { base with x := c.1 - w / 2, y := c.2 + h / 2 }
      | some .bottomRight => { base with x := c.1 + w / 2, y := c.2 + h / 2 }
      | _ => { base with x := c.1 - w / 2, y := c.2 - h / 2 })
    { nodes := newNodes, edges := edges, width := out.width, height := out.height }

/-- CLAIM C9: for every call to calculateLayoutWithDagre in which the node
list is empty, or includeHidden is false and every node in the list is
hidden, the result is exactly an empty node list, an empty edge list,
width 0 and height 0 — and this holds for every dagre oracle, so the
underlying dagre layout computation is not consulted for any node
position. -/
theorem calculateLayoutWithDagre_empty (oracle : DagreGraphData → DagreOutput)
    (nodes : List Node) (edges : List Edge) (direction : Direction)
    (margin nodeSpacing layerSpacing defaultNodeWidth defaultNodeHeight : Rat)
    (includeHidden : Bool)
    (h : nodes = [] ∨
      (includeHidden = false ∧ ∀ n ∈ nodes, n.hidden = true)) :
    calculateLayoutWithDagre oracle nodes edges direction margin nodeSpacing
      layerSpacing defaultNodeWidth defaultNodeHeight includeHidden =
      { nodes := [], edges := [], width := 0, height := 0 } := by
  have hfil : (if includeHidden then nodes
      else nodes.filter (fun n => ¬ n.hidden)) = [] := by
    rcases h with h | ⟨h1, h2⟩
    · subst h; simp
    · subst h1
      simp only [if_neg Bool.false_ne_true]
      rw [List.filter_eq_nil_iff]
      intro a ha
      simp [h2 a ha]
  unfold calculateLayoutWithDagre
  rw [hfil]
  simp

/-- The hidden node used in the CLAIM C9 witness. -/
def hiddenNode : Node := { id := "h1", hidden := true }

/-- A concrete dagre oracle for the witnesses: every node at the origin,
overall size 300 by 200. -/
def constOracle : DagreGraphData → DagreOutput :=
  fun _ => { pos := fun _ => (0, 0), width := 300, height := 200 }

theorem calculateLayoutWithDagre_empty_witness :
    calculateLayoutWithDagre constOracle [hiddenNode] [] .TB 10 50 50 172 36
      false = { nodes := [], edges := [], width := 0, height := 0 } :=
  calculateLayoutWithDagre_empty constOracle [hiddenNode] [] .TB 10 50 50 172
    36 false (Or.inr ⟨rfl, by decide⟩)

/-- The layout-engine collaborator contract of the organizer: an
asynchronous function that may reject, modelled as Except. -/
abbrev LayoutEngine : Type :=
  List Node → List Edge → Direction → Rat → Rat → Rat → Rat → Rat → Bool →
    Except String LayoutResult

/-- getEdgesOfNodes from HierarchicalLayoutOrganizer.ts (lines 7-47).  For
each edge touching the child set, `unalteredEdges` receives a deep copy
taken BEFORE any rewrite, while the edge object itself may have its outside
endpoint rewritten in place to that endpoint's parent id; `alteredEdges`
receives the (possibly rewritten) object.  The third component is the
resulting state of the caller's edge array, whose objects the source
mutates in place. -/
def getEdgesOfNodes (nodeIdSet : List String) (nmap : NodeMap) :
    List Edge → (List Edge × List Edge × List Edge)
  | [] => ([], [], [])
  | e :: rest =>
    let r := getEdgesOfNodes nodeIdSet nmap rest
    if e.source ∈ nodeIdSet ∨ e.target ∈ nodeIdSet then
      let e2 :=
        if e.target ∉ nodeIdSet then
          match mapGet nmap e.target with
          | some childNode =>
            match childNode.parentId with
            | some p =>
              if p = "" then e
              else
                match mapGet nmap p with
                | some parentNode => { e with target := parentNode.id }
                | none => e
            | none => e
          | none => e
        else if e.source ∉ nodeIdSet then
          match mapGet nmap e.source with
          | some childNode =>
            match childNode.parentId with
            | some p =>
              if p = "" then e
              else
                match mapGet nmap p with
                | some parentNode => { e with source := parentNode.id }
                | none => e
            | none => e
          | none => e
        else e
      (e2 :: r.1, e :: r.2.1, e2 :: r.2.2)
    else (r.1, r.2.1, e :: r.2.2)

/-- fixParentNodeDimensions from HierarchicalLayoutOrganizer.ts (lines
219-236): writes the computed bounding size onto the container node's
width/height, measured record and style entries (in place in the source;
here the updated node value). -/
def fixParentNodeDimensions (node : Node) (width height : Rat) : Node :=
  { node with
    width := some width
    height := some height
    measured := some (width, height)
    styleWidth := some width
    styleHeight := some height }

/-- In-place update of the node object stored under a key of the shared
node map. -/
def mapSet (m : NodeMap) (k : String) (v : Node) : NodeMap :=
  m.map (fun q => if q.1 = k then (q.1, v) else q)

/-- The per-step result record of layoutSingleContainer (the source returns
{updatedNodes, updatedEdges, udpatedParentNode}). -/
structure StepResult where
  updatedNodes : List Node
  updatedEdges : List Edge
  updatedParentNode : Option Node
deriving Repr

/-- layoutSingleContainer from HierarchicalLayoutOrganizer.ts (lines
151-217): lays out the direct children of one container.  The shared node
map and edge array are threaded as state (the source mutates edge objects
in getEdgesOfNodes before awaiting the engine, and the container node in
fixParentNodeDimensions after it); on engine rejection the edge rewrites
persist but no dimensions are written. -/
def layoutSingleContainer (parentNodeId : String)
    (defaultDirection : Direction) (idx : ChildIndex)
    (margin nodeSpacing layerSpacing defaultNodeWidth defaultNodeHeight : Rat)
    (engine : LayoutEngine) (includeHidden : Bool)
    (nmap : NodeMap) (edges : List Edge) :
    Except String StepResult × NodeMap × List Edge :=
  match mapGet idx parentNodeId with
  | none => (.ok ⟨[], [], none⟩, nmap, edges)
  | some childIdSet =>
    if childIdSet.length = 0 then (.ok ⟨[], [], none⟩, nmap, edges)
    else
      let nodesToLayout := childIdSet.filterMap (fun cid => mapGet nmap cid)
      if nodesToLayout.length = 0 then (.ok ⟨[], [], none⟩, nmap, edges)
      else
        let parentNode := mapGet nmap parentNodeId
        let direction :=
          match parentNode with
          | some p =>
            match p.dataLayoutDirection with
            | some d => d
            | none => defaultDirection
          | none => defaultDirection
        let ge := getEdgesOfNodes childIdSet nmap edges
        match engine nodesToLayout ge.1 direction margin nodeSpacing
            layerSpacing defaultNodeWidth defaultNodeHeight includeHidden with
        | .error err => (.error err, nmap, ge.2.2)
        | .ok res =>
          match parentNode with
          | some p =>
            if res.width ≠ 0 ∧ res.height ≠ 0 then
              let p2 := fixParentNodeDimensions p res.width res.height
              (.ok ⟨res.nodes, ge.2.1, some p2⟩,
                mapSet nmap parentNodeId p2, ge.2.2)
            else (.ok ⟨res.nodes, ge.2.1, some p⟩, nmap, ge.2.2)
          | none => (.ok ⟨res.nodes, ge.2.1, none⟩, nmap, ge.2.2)

/-- collectNodesByDepth from organizeLayoutByTreeDepth
(HierarchicalLayoutOrganizer.ts lines 284-297) as a preorder list of
(depth, id) pairs; the source pushes each visited id into the bucket of its
depth, so the bucket of depth d is the d-filtered sublist. -/
def collectPairs : TreeNodes → Nat → List (Nat × String)
  | .nil, _ => []
  | .cons i _ cs _ rest, depth =>
    (depth, i) ::
      ((if cs.length > 0 then collectPairs cs (depth + 1) else []) ++
        collectPairs rest depth)

/-- The preorder (depth, id) pairs of a forest, as collected by
collectNodesByDepth starting at depth 0. -/
def collectNodesByDepth (forest : TreeNodes) : List (Nat × String) :=
  collectPairs forest 0

/-- The maxDepth variable of organizeLayoutByTreeDepth: greatest depth at
which an id was collected, and 0 for an empty forest. -/
def maxDepthOf (pairs : List (Nat × String)) : Nat :=
  pairs.foldl (fun m p => max m p.1) 0

/-- The ids pushed into the bucket of one depth, in traversal order. -/
def groupAtDepth (pairs : List (Nat × String)) (d : Nat) : List String :=
  (pairs.filter (fun p => p.1 = d)).map (fun p => p.2)

/-- The sequence of container ids processed by organizeLayoutByTreeDepth:
depth buckets from deepest to shallowest, then the no-parent sentinel. -/
def processingOrder (forest : TreeNodes) (key : String) : List String :=
  let pairs := collectNodesByDepth forest
  ((List.range (maxDepthOf pairs + 1)).reverse.map
    (fun d => groupAtDepth pairs d)).flatten ++ [key]

/-- The bundled per-request parameters of the organizer loops. -/
structure OrgParams where
  direction : Direction
  idx : ChildIndex
  margin : Rat
  nodeSpacing : Rat
  layerSpacing : Rat
  defaultNodeWidth : Rat
  defaultNodeHeight : Rat
  engine : LayoutEngine
  includeHidden : Bool

/-- The outcome of one depth level: the first engine rejection if any, the
per-container (updatedNodes, updatedEdges) results in container order, the
resulting shared state, and the container ids processed. -/
structure LevelOut where
  err : Option String
  results : List (List Node × List Edge)
  nmap : NodeMap
  edges : List Edge
  trace : List String

/-- One level of organizeLayoutByTreeDepth (lines 307-322).  The source
issues the level's layoutSingleContainer calls under Promise.all; the calls
are modelled sequentially in list order, which is observationally equal for
hierarchy trees (same-depth containers are never parent and child, so their
steps touch disjoint node-map entries; the edge rewrites happen in call
order in both).  A rejecting step still lets the remaining steps of the
level run (their continuations execute in the source), and the first error
is reported. -/
def runLevel (P : OrgParams) :
    List String → NodeMap → List Edge → LevelOut
  | [], nmap, edges => ⟨none, [], nmap, edges, []⟩
  | pid :: rest, nmap, edges =>
    match layoutSingleContainer pid P.direction P.idx P.margin P.nodeSpacing
        P.layerSpacing P.defaultNodeWidth P.defaultNodeHeight P.engine
        P.includeHidden nmap edges with
    | (.error e, nmap2, edges2) =>
      let rr := runLevel P rest nmap2 edges2
      ⟨some e, rr.results, rr.nmap, rr.edges, pid :: rr.trace⟩
    | (.ok step, nmap2, edges2) =>
      let rr := runLevel P rest nmap2 edges2
      ⟨rr.err, (step.updatedNodes, step.updatedEdges) :: rr.results,
        rr.nmap, rr.edges, pid :: rr.trace⟩

/-- The depth loop of organizeLayoutByTreeDepth (lines 303-329), processing
the given depths in order and prepending each level's results onto the
accumulators exactly as the source's merge does; a level that reported a
rejection aborts the loop (the awaited Promise.all throws). -/
def runLevels (P : OrgParams) (pairs : List (Nat × String)) :
    List Nat → List Node → List Edge → NodeMap → List Edge →
      Except String (List Node × List Edge) × NodeMap × List Edge × List String
  | [], accN, accE, nmap, edges => (.ok (accN, accE), nmap, edges, [])
  | d :: restD, accN, accE, nmap, edges =>
    let lo := runLevel P (groupAtDepth pairs d) nmap edges
    match lo.err with
    | some e => (.error e, lo.nmap, lo.edges, lo.trace)
    | none =>
      let accN2 := lo.results.foldl (fun a r => r.1 ++ a) accN
      let accE2 := lo.results.foldl (fun a r => r.2 ++ a) accE
      let rr := runLevels P pairs restD accN2 accE2 lo.nmap lo.edges
      (rr.1, rr.2.1, rr.2.2.1, lo.trace ++ rr.2.2.2)

/-- organizeLayoutByTreeDepth from HierarchicalLayoutOrganizer.ts (lines
260-355): processes the depth buckets from deepest to shallowest, finally
the no-parent pseudo-container, merging each step's updated nodes and edges
in front of the accumulated ones.  Returns the result (or the propagated
engine rejection), the final shared node map and edge array, and the trace
of container ids in processing order. -/
def organizeLayoutByTreeDepth (parentTree : TreeNodes)
    (direction : Direction) (idx : ChildIndex) (nmap : NodeMap)
    (edges : List Edge)
    (margin nodeSpacing layerSpacing defaultNodeWidth defaultNodeHeight : Rat)
    (engine : LayoutEngine) (includeHidden : Bool) (key : String) :
    Except String (List Node × List Edge) × NodeMap × List Edge × List String :=
  let P : OrgParams := ⟨direction, idx, margin, nodeSpacing, layerSpacing,
    defaultNodeWidth, defaultNodeHeight, engine, includeHidden⟩
  let pairs := collectNodesByDepth parentTree
  let r := runLevels P pairs (List.range (maxDepthOf pairs + 1)).reverse
    [] [] nmap edges
  match r.1 with
  | .error e => (.error e, r.2.1, r.2.2.1, r.2.2.2)
  | .ok acc =>
    match layoutSingleContainer key direction idx margin nodeSpacing
        layerSpacing defaultNodeWidth defaultNodeHeight engine includeHidden
        r.2.1 r.2.2.1 with
    | (.error e, nmap2, edges2) =>
      (.error e, nmap2, edges2, r.2.2.2 ++ [key])
    | (.ok step, nmap2, edges2) =>
      (.ok (step.updatedNodes ++ acc.1, step.updatedEdges ++ acc.2),
        nmap2, edges2, r.2.2.2 ++ [key])

/-- Cross-container scenario (also the repository's own
HierarchicalLayoutOrganizer test fixture): containers A and B with children
D and G, and one edge from D to G. -/
def cA : Node := { id := "containerA" }

def cB : Node := { id := "containerB" }

def nD : Node := { id := "nodeD", parentId := some "containerA" }

def nG : Node := { id := "nodeG", parentId := some "containerB" }

def cMap : NodeMap :=
  [("containerA", cA), ("containerB", cB), ("nodeD", nD), ("nodeG", nG)]

def cIdx : ChildIndex :=
  [("containerA", ["nodeD"]), ("containerB", ["nodeG"]),
    ("no-parent", ["containerA", "containerB"])]

def cEdge : Edge := { id := "edge-D-G", source := "nodeD", target := "nodeG" }

/-- The deterministic engine of the repository's organizer tests: every
node at (100, 100) with the default dimensions, bounding size 300 by 200. -/
def mockEngine : LayoutEngine :=
  fun nodes edges _ _ _ _ dw dh _ =>
    .ok
      { nodes := nodes.map (fun n =>
          { n with
            x := 100, y := 100,
            width := some dw, height := some dh,
            styleWidth := some dw, styleHeight := some dh })
        edges := edges
        width := 300
        height := 200 }

/-- CLAIM C1 is violated by the code: running organizeLayoutByTreeDepth on
the cross-container scenario leaves the caller's edge object rewritten in
place — after the call its source is "containerA" and its target
"containerB" instead of the original "nodeD" and "nodeG" — and the edge
list handed back is a two-element list of rewritten copies, not the
original connection list.  (The repository's own test for this fixture
expects the original edges back unchanged.) -/
theorem organizeLayoutByTreeDepth_mutates_edges :
    (organizeLayoutByTreeDepth (buildNodeTree cIdx cMap "no-parent") .TB cIdx
        cMap [cEdge] 10 50 50 172 36 mockEngine false "no-parent").2.2.1 =
      [{ cEdge with source := "containerA", target := "containerB" }] ∧
    (organizeLayoutByTreeDepth (buildNodeTree cIdx cMap "no-parent") .TB cIdx
        cMap [cEdge] 10 50 50 172 36 mockEngine false "no-parent").1.map
        (fun p => p.2) =
      .ok [{ cEdge with target := "containerB" }, cEdge] ∧
    ([{ cEdge with target := "containerB" }, cEdge] : List Edge) ≠ [cEdge] ∧
    ({ cEdge with source := "containerA", target := "containerB" } : Edge) ≠
      cEdge := by
  refine ⟨rfl, rfl, ?_, ?_⟩
  · decide
  · decide

/-- Membership of an id in a TreeNodes forest: at the head, inside the head
member's children, or further along the sibling list. -/
inductive InF : TreeNodes → String → Prop where
  | here (i : String) (n : Node) (cs : TreeNodes) (d : Nat)
      (rest : TreeNodes) : InF (.cons i n cs d rest) i
  | inChildren {cs : TreeNodes} {x : String} (i : String) (n : Node)
      (d : Nat) (rest : TreeNodes) : InF cs x → InF (.cons i n cs d rest) x
  | inRest {rest : TreeNodes} {x : String} (i : String) (n : Node)
      (cs : TreeNodes) (d : Nat) : InF rest x → InF (.cons i n cs d rest) x

/-- D is a strict descendant of the container C somewhere in the forest:
either C is a member and D occurs in its child forest, or the pair occurs
deeper among the children or further along the siblings. -/
inductive DescIn : TreeNodes → String → String → Prop where
  | head {cs : TreeNodes} {D : String} (i : String) (n : Node) (d : Nat)
      (rest : TreeNodes) : InF cs D → DescIn (.cons i n cs d rest) i D
  | inChild {cs : TreeNodes} {C D : String} (i : String) (n : Node)
      (d : Nat) (rest : TreeNodes) :
      DescIn cs C D → DescIn (.cons i n cs d rest) C D
  | inSib {rest : TreeNodes} {C D : String} (i : String) (n : Node)
      (cs : TreeNodes) (d : Nat) :
      DescIn rest C D → DescIn (.cons i n cs d rest) C D

lemma InF_pos {cs : TreeNodes} {x : String} (h : InF cs x) : 0 < cs.length := by
  cases h <;> simp [TreeNodes.length]

lemma DescIn_pos {cs : TreeNodes} {C D : String} (h : DescIn cs C D) :
    0 < cs.length := by
  cases h <;> simp [TreeNodes.length]

lemma inF_collectPairs {f : TreeNodes} {x : String} (h : InF f x) :
    ∀ d0 : Nat, ∃ dx, d0 ≤ dx ∧ (dx, x) ∈ collectPairs f d0 := by
  induction h with
  | here i n cs d rest =>
    intro d0
    exact ⟨d0, le_refl _, by simp [collectPairs]⟩
  | inChildren i n d rest h ih =>
    intro d0
    obtain ⟨dx, hge, hmem⟩ := ih (d0 + 1)
    refine ⟨dx, by omega, ?_⟩
    simp only [collectPairs, if_pos (InF_pos h)]
    exact List.mem_cons_of_mem _ (List.mem_append_left _ hmem)
  | inRest i n cs d h ih =>
    intro d0
    obtain ⟨dx, hge, hmem⟩ := ih d0
    exact ⟨dx, hge, List.mem_cons_of_mem _ (List.mem_append_right _ hmem)⟩

lemma descIn_collectPairs {f : TreeNodes} {C D : String} (h : DescIn f C D) :
    ∀ d0 : Nat, ∃ dC dD, dC < dD ∧ (dC, C) ∈ collectPairs f d0 ∧
      (dD, D) ∈ collectPairs f d0 := by
  induction h with
  | head i n d rest h =>
    intro d0
    obtain ⟨dD, hge, hmem⟩ := inF_collectPairs h (d0 + 1)
    refine ⟨d0, dD, by omega, by simp [collectPairs], ?_⟩
    simp only [collectPairs, if_pos (InF_pos h)]
    exact List.mem_cons_of_mem _ (List.mem_append_left _ hmem)
  | inChild i n d rest h ih =>
    intro d0
    obtain ⟨dC, dD, hlt, hmC, hmD⟩ := ih (d0 + 1)
    refine ⟨dC, dD, hlt, ?_, ?_⟩
    · simp only [collectPairs, if_pos (DescIn_pos h)]
      exact List.mem_cons_of_mem _ (List.mem_append_left _ hmC)
    · simp only [collectPairs, if_pos (DescIn_pos h)]
      exact List.mem_cons_of_mem _ (List.mem_append_left _ hmD)
  | inSib i n cs d h ih =>
    intro d0
    obtain ⟨dC, dD, hlt, hmC, hmD⟩ := ih d0
    exact ⟨dC, dD, hlt,
      List.mem_cons_of_mem _ (List.mem_append_right _ hmC),
      List.mem_cons_of_mem _ (List.mem_append_right _ hmD)⟩

lemma foldl_max_init_le (l : List (Nat × String)) :
    ∀ m : Nat, m ≤ l.foldl (fun m p => max m p.1) m := by
  induction l with
  | nil => intro m; exact le_refl m
  | cons p ps ih =>
    intro m
    rw [List.foldl_cons]
    exact le_trans (le_max_left m p.1) (ih (max m p.1))

lemma mem_le_foldl_max {a : Nat × String} (l : List (Nat × String)) :
    ∀ m : Nat, a ∈ l → a.1 ≤ l.foldl (fun m p => max m p.1) m := by
  induction l with
  | nil => intro m h; cases h
  | cons p ps ih =>
    intro m h
    rw [List.foldl_cons]
    rcases List.mem_cons.mp h with h | h
    · subst h
      exact le_trans (le_max_right m a.1) (foldl_max_init_le ps (max m a.1))
    · exact ih (max m p.1) h

lemma mem_groupAtDepth_of {pairs : List (Nat × String)} {d : Nat} {x : String}
    (p : Nat × String) (hp : p ∈ pairs) (h1 : p.1 = d) (h2 : p.2 = x) :
    x ∈ groupAtDepth pairs d := by
  subst h1; subst h2
  exact List.mem_map_of_mem _ (List.mem_filter.mpr ⟨hp, by simp⟩)

lemma of_mem_groupAtDepth {pairs : List (Nat × String)} {d : Nat} {x : String}
    (h : x ∈ groupAtDepth pairs d) : ∃ p, p ∈ pairs ∧ p.1 = d ∧ p.2 = x := by
  simp only [groupAtDepth, List.mem_map] at h
  obtain ⟨p, hp, hpx⟩ := h
  have hf := List.mem_filter.mp hp
  exact ⟨p, hf.1, by simpa using hf.2, hpx⟩

lemma runLevel_trace (P : OrgParams) :
    ∀ (pids : List String) (nmap : NodeMap) (edges : List Edge),
      (runLevel P pids nmap edges).trace = pids := by
  intro pids
  induction pids with
  | nil => intro nmap edges; rfl
  | cons pid rest ih =>
    intro nmap edges
    rcases hS : layoutSingleContainer pid P.direction P.idx P.margin
        P.nodeSpacing P.layerSpacing P.defaultNodeWidth P.defaultNodeHeight
        P.engine P.includeHidden nmap edges with ⟨ex, nm2, ed2⟩
    cases ex <;> simp [runLevel, hS, ih]

lemma runLevels_trace (P : OrgParams) (pairs : List (Nat × String)) :
    ∀ (ds : List Nat) (accN : List Node) (accE : List Edge) (nmap : NodeMap)
      (edges : List Edge),
      (runLevels P pairs ds accN accE nmap edges).1.isOk = true →
      (runLevels P pairs ds accN accE nmap edges).2.2.2 =
        (ds.map (fun d => groupAtDepth pairs d)).flatten := by
  intro ds
  induction ds with
  | nil => intro accN accE nmap edges _; rfl
  | cons d restD ih =>
    intro accN accE nmap edges hok
    simp only [runLevels] at hok ⊢
    cases hE : (runLevel P (groupAtDepth pairs d) nmap edges).err with
    | some e =>
      simp only [hE, Except.isOk, Except.toBool] at hok
      exact Bool.noConfusion hok
    | none =>
      simp only [hE] at hok ⊢
      rw [List.map_cons, List.flatten_cons, runLevel_trace, ih _ _ _ _ hok]

lemma organize_trace_ok (parentTree : TreeNodes) (direction : Direction)
    (idx : ChildIndex) (nmap : NodeMap) (edges : List Edge)
    (margin nodeSpacing layerSpacing dw dh : Rat) (engine : LayoutEngine)
    (includeHidden : Bool) (key : String)
    (hok : (organizeLayoutByTreeDepth parentTree direction idx nmap edges
      margin nodeSpacing layerSpacing dw dh engine includeHidden
      key).1.isOk = true) :
    (organizeLayoutByTreeDepth parentTree direction idx nmap edges margin
      nodeSpacing layerSpacing dw dh engine includeHidden key).2.2.2 =
      processingOrder parentTree key := by
  simp only [organizeLayoutByTreeDepth] at hok ⊢
  set r := runLevels ⟨direction, idx, margin, nodeSpacing, layerSpacing, dw,
    dh, engine, includeHidden⟩ (collectNodesByDepth parentTree)
    (List.range (maxDepthOf (collectNodesByDepth parentTree) + 1)).reverse
    [] [] nmap edges with hr
  have ht := runLevels_trace ⟨direction, idx, margin, nodeSpacing,
    layerSpacing, dw, dh, engine, includeHidden⟩
    (collectNodesByDepth parentTree)
    (List.range (maxDepthOf (collectNodesByDepth parentTree) + 1)).reverse
    [] [] nmap edges
  rw [← hr] at ht
  cases hE : r.1 with
  | error e =>
    simp only [hE, Except.isOk, Except.toBool] at hok
    exact Bool.noConfusion hok
  | ok acc =>
    simp only [hE] at hok ⊢
    have htr : r.2.2.2 =
        ((List.range (maxDepthOf (collectNodesByDepth parentTree) +
          1)).reverse.map
          (fun d => groupAtDepth (collectNodesByDepth parentTree) d)).flatten :=
      ht (by rw [hE]; rfl)
    rcases hS : layoutSingleContainer key direction idx margin nodeSpacing
        layerSpacing dw dh engine includeHidden r.2.1 r.2.2.1 with
      ⟨ex, nm2, ed2⟩
    cases ex with
    | error e =>
      simp only [hS, Except.isOk, Except.toBool] at hok
      exact Bool.noConfusion hok
    | ok step =>
      simp only [hS, processingOrder]
      rw [htr]

lemma processingOrder_lt {forest : TreeNodes} {C D : String}
    (hnodup : ((collectNodesByDepth forest).map (fun p => p.2)).Nodup)
    (hdesc : DescIn forest C D) (key : String) :
    List.indexOf D (processingOrder forest key) <
      List.indexOf C (processingOrder forest key) := by
  obtain ⟨dC, dD, hlt, hmC, hmD⟩ := descIn_collectPairs hdesc 0
  set pairs := collectNodesByDepth forest with hpairs
  have hmC2 : (dC, C) ∈ pairs := by rw [hpairs]; exact hmC
  have hmD2 : (dD, D) ∈ pairs := by rw [hpairs]; exact hmD
  set maxD := maxDepthOf pairs with hmaxD
  have hDmax : dD ≤ maxD := mem_le_foldl_max pairs 0 hmD2
  have hsplit : maxD + 1 = (dC + 1) + (maxD - dC) := by omega
  have hds : (List.range (maxD + 1)).reverse =
      ((List.range (maxD - dC)).map (dC + 1 + ·)).reverse ++
        (List.range (dC + 1)).reverse := by
    rw [hsplit, List.range_add, List.reverse_append]
  have horder : processingOrder forest key =
      (((List.range (maxD - dC)).map (dC + 1 + ·)).reverse.map
        (fun d => groupAtDepth pairs d)).flatten ++
      ((((List.range (dC + 1)).reverse.map
        (fun d => groupAtDepth pairs d)).flatten) ++ [key]) := by
    simp only [processingOrder]
    rw [← hpairs, ← hmaxD, hds, List.map_append, List.flatten_append,
      List.append_assoc]
  set X := (((List.range (maxD - dC)).map (dC + 1 + ·)).reverse.map
    (fun d => groupAtDepth pairs d)).flatten with hX
  have hDX : D ∈ X := by
    rw [hX]
    refine List.mem_flatten.mpr ⟨groupAtDepth pairs dD, ?_, ?_⟩
    · refine List.mem_map_of_mem _ ?_
      rw [List.mem_reverse]
      exact List.mem_map.mpr ⟨dD - (dC + 1),
        List.mem_range.mpr (by omega), by omega⟩
    · exact mem_groupAtDepth_of (dD, D) hmD2 rfl rfl
  have hCX : C ∉ X := by
    intro hC
    rw [hX] at hC
    obtain ⟨s, hs, hCs⟩ := List.mem_flatten.mp hC
    obtain ⟨d, hd, hds2⟩ := List.mem_map.mp hs
    rw [← hds2] at hCs
    obtain ⟨p, hp, hp1, hp2⟩ := of_mem_groupAtDepth hCs
    have hd2 : dC + 1 ≤ d := by
      rw [List.mem_reverse] at hd
      obtain ⟨k, hk, hkd⟩ := List.mem_map.mp hd
      omega
    have heq : p = (dC, C) :=
      List.inj_on_of_nodup_map hnodup hp hmC2 (by simpa using hp2)
    rw [heq] at hp1
    omega
  rw [horder, List.indexOf_append_of_mem hDX,
    List.indexOf_append_of_not_mem hCX]
  have hlen : List.indexOf D X < X.length := List.indexOf_lt_length.mpr hDX
  omega

lemma processingOrder_getLast (forest : TreeNodes) (key : String) :
    (processingOrder forest key).getLast? = some key := by
  simp only [processingOrder]
  exact List.getLast?_concat _

/-- CLAIM C3: in full-tree mode the organizer processes containers strictly
bottom-up.  (1) Whenever organizeLayoutByTreeDepth succeeds, the sequence
of single-container layout steps it performed (its trace) is exactly
processingOrder: the depth buckets of the tree from deepest to shallowest
followed by the no-parent sentinel.  (2) In that sequence, for every
container C of the forest and every descendant container D of C (the
container ids being distinct), D's step occurs strictly before C's step.
(3) The sentinel pseudo-container is processed last of all. -/
theorem organizeLayoutByTreeDepth_depth_order :
    (∀ (parentTree : TreeNodes) (direction : Direction) (idx : ChildIndex)
        (nmap : NodeMap) (edges : List Edge)
        (margin nodeSpacing layerSpacing dw dh : Rat) (engine : LayoutEngine)
        (includeHidden : Bool) (key : String),
      (organizeLayoutByTreeDepth parentTree direction idx nmap edges margin
        nodeSpacing layerSpacing dw dh engine includeHidden
        key).1.isOk = true →
      (organizeLayoutByTreeDepth parentTree direction idx nmap edges margin
        nodeSpacing layerSpacing dw dh engine includeHidden key).2.2.2 =
        processingOrder parentTree key) ∧
    (∀ (forest : TreeNodes) (key C D : String),
      ((collectNodesByDepth forest).map (fun p => p.2)).Nodup →
      DescIn forest C D →
      List.indexOf D (processingOrder forest key) <
        List.indexOf C (processingOrder forest key)) ∧
    (∀ (forest : TreeNodes) (key : String),
      (processingOrder forest key).getLast? = some key) :=
  ⟨fun parentTree direction idx nmap edges margin ns ls dw dh engine ih key
      hok => organize_trace_ok parentTree direction idx nmap edges margin ns
        ls dw dh engine ih key hok,
    fun _forest key _C _D hnodup hdesc => processingOrder_lt hnodup hdesc key,
    fun forest key => processingOrder_getLast forest key⟩

/-- Nested-container fixture: container p1 lives inside container gp, the
leaf node inside p1; only gp and p1 are parent keys of the index. -/
def gpN : Node := { id := "gp" }

def p1N : Node := { id := "p1", parentId := some "gp" }

def leafN : Node := { id := "leaf", parentId := some "p1" }

def tMap : NodeMap := [("gp", gpN), ("p1", p1N), ("leaf", leafN)]

def tIdx : ChildIndex :=
  [("gp", ["p1"]), ("p1", ["leaf"]), ("no-parent", ["gp"])]

/-- Witness for C3 at the nested-container fixture: the organizer run
succeeds and its trace is the processing order; p1 (a descendant container
of gp) is processed strictly before gp; the sentinel is last. -/
theorem organizeLayoutByTreeDepth_depth_order_witness :
    (organizeLayoutByTreeDepth (buildNodeTree tIdx tMap "no-parent") .TB tIdx
        tMap [] 10 50 50 172 36 mockEngine false "no-parent").2.2.2 =
      processingOrder (buildNodeTree tIdx tMap "no-parent") "no-parent" ∧
    List.indexOf "p1"
        (processingOrder (buildNodeTree tIdx tMap "no-parent") "no-parent") <
      List.indexOf "gp"
        (processingOrder (buildNodeTree tIdx tMap "no-parent") "no-parent") ∧
    (processingOrder (buildNodeTree tIdx tMap "no-parent")
        "no-parent").getLast? = some "no-parent" := by
  have hf : buildNodeTree tIdx tMap "no-parent" =
      TreeNodes.cons "gp" gpN
        (TreeNodes.cons "p1" p1N TreeNodes.nil 1 TreeNodes.nil) 0
        TreeNodes.nil := rfl
  refine ⟨organizeLayoutByTreeDepth_depth_order.1 _ .TB tIdx tMap []
      10 50 50 172 36 mockEngine false "no-parent" rfl,
    organizeLayoutByTreeDepth_depth_order.2.1 _ "no-parent" "gp"
      "p1" (by rw [hf]; decide) ?_,
    organizeLayoutByTreeDepth_depth_order.2.2 _ "no-parent"⟩
  rw [hf]
  exact DescIn.head _ _ _ _ (InF.here _ _ _ _ _)

/-- Dereference a caller-held array of node references through the shared
node map: the caller's array and the map hold the same node objects, so
the array's contents at any instant are the map's values for those ids
(ids assumed present, as LayoutProvider builds the map from the array). -/
def derefNodes (ids : List String) (nmap : NodeMap) : List Node :=
  ids.filterMap (fun i => mapGet nmap i)

/-- The hidden-node filter of calculateLayout (useLayoutCalculation.ts
lines 143-145). -/
def filteredNodesOf (layoutHidden : Bool) (nodes : List Node) : List Node :=
  if layoutHidden then nodes else nodes.filter (fun n => !n.hidden)

/-- The visible-edge filter of calculateLayout (lines 148-153): keep only
edges whose endpoints are both visible nodes. -/
def filteredEdgesOf (layoutHidden : Bool) (nodes : List Node)
    (edges : List Edge) : List Edge :=
  if layoutHidden then edges
  else
    let vis := (filteredNodesOf layoutHidden nodes).map (fun n => n.id)
    edges.filter (fun e => decide (e.source ∈ vis ∧ e.target ∈ vis))

/-- The caller's edge array contents after the organizer ran: an edge
object that entered the filtered array was mutated in place, so the
caller's array shows its final state (matched by id, which no endpoint
rewrite changes); edges filtered out were never touched. -/
def spliceEdges (edges final : List Edge) : List Edge :=
  edges.map (fun e => ((final.find? (fun x => x.id == e.id)).getD e))

/-- calculateLayout from useLayoutCalculation.ts (lines 129-231) for
requests without a selection (the selectedNodes branch is a separate mode
and is not modelled; the full-tree else branch of lines 193-217 is).
engineFound models the layoutEngines[algorithm] || layoutEngines.dagre
lookup succeeding; the organizer receives the module-default algorithm
(line 210 passes undefined as LayoutAlgorithm, so the looked-up engine is
never forwarded), modelled by the engine parameter since dagre is an
external library.  The caller's node array is its id list dereferenced
through the shared node map; returns the result together with the final
node map and the caller's edge array contents. -/
def calculateLayout (engineFound : Bool) (engine : LayoutEngine)
    (direction : LayoutDirection) (idx : ChildIndex) (nmap : NodeMap)
    (nodeIds : List String) (edges : List Edge)
    (margin nodeSpacing layerSpacing nodeWidth nodeHeight : Rat)
    (layoutHidden : Bool) (key : String) :
    Except String (List Node × List Edge) × NodeMap × List Edge :=
  let nodes := derefNodes nodeIds nmap
  if engineFound = false then (.ok (nodes, edges), nmap, edges)
  else
    let filteredEdges := filteredEdgesOf layoutHidden nodes edges
    let r := organizeLayoutByTreeDepth (buildNodeTree idx nmap key)
      (convertDirection direction) idx nmap filteredEdges margin nodeSpacing
      layerSpacing nodeWidth nodeHeight engine layoutHidden key
    let callerEdges := spliceEdges edges r.2.2.1
    match r.1 with
    | .error e => (.error e, r.2.1, callerEdges)
    | .ok res =>
      let nodesAfter := derefNodes nodeIds r.2.1
      let finalNodes := nodesAfter.map (fun node =>
        if layoutHidden = false ∧ node.hidden = true then node
        else (res.1.find? (fun n => n.id == node.id)).getD node)
      (.ok (finalNodes, res.2), r.2.1, callerEdges)

/-- The observable outcome of one applyLayout call: the returned node and
edge lists, the final shared node map, whether updateNodes/updateEdges
committed a result to the host, and the error surfaced by the catch. -/
structure ApplyOut where
  nodes : List Node
  edges : List Edge
  nmap : NodeMap
  committed : Bool
  reportedError : Option String
deriving Repr, DecidableEq

/-- applyLayout from LayoutProvider.tsx (lines 156-211), for requests
without a selection: the in-progress and empty guards return the input
unchanged; otherwise calculateLayout runs in the try block, a success is
committed via updateNodes/updateEdges and returned, and a rejection is
caught — the error is logged and the catch returns the caller's own node
references (read through the node map as left by the failed request) and
its own edge array contents. -/
def applyLayout (layoutInProgress : Bool) (engineFound : Bool)
    (engine : LayoutEngine) (direction : LayoutDirection) (idx : ChildIndex)
    (nmap : NodeMap) (nodeIds : List String) (edges : List Edge)
    (margin nodeSpacing layerSpacing nodeWidth nodeHeight : Rat)
    (layoutHidden : Bool) (key : String) : ApplyOut :=
  if layoutInProgress then ⟨derefNodes nodeIds nmap, edges, nmap, false, none⟩
  else if nodeIds.length = 0 then
    ⟨derefNodes nodeIds nmap, edges, nmap, false, none⟩
  else
    match calculateLayout engineFound engine direction idx nmap nodeIds
        edges margin nodeSpacing layerSpacing nodeWidth nodeHeight
        layoutHidden key with
    | (.ok res, nmap2, _) => ⟨res.1, res.2, nmap2, true, none⟩
    | (.error e, nmap2, edges2) =>
      ⟨derefNodes nodeIds nmap2, edges2, nmap2, false, some e⟩

/-- An engine that rejects exactly when asked to lay out container p1
(i.e. at the gp step of the nested fixture) and otherwise behaves like
mockEngine. -/
def failEngine : LayoutEngine :=
  fun nodes edges _ _ _ _ dw dh _ =>
    if nodes.any (fun n => n.id == "p1") then .error "engine failure"
    else
      .ok
        { nodes := nodes.map (fun n =>
            { n with
              x := 100, y := 100,
              width := some dw, height := some dh,
              styleWidth := some dw, styleHeight := some dh })
          edges := edges
          width := 300
          height := 200 }

/-- CLAIM C4 is refuted in its rollback part: on the nested fixture with
an engine that succeeds for the p1 container and then rejects at the gp
container, applyLayout catches and surfaces the failure without
committing, but the shared node map is NOT left unchanged — container p1
keeps the width/height/measured/style dimensions written by the earlier,
successful container step of the same failed request. -/
theorem applyLayout_engine_failure_refutes :
    (applyLayout false true failEngine .DOWN tIdx tMap ["gp", "p1", "leaf"]
        [] 10 50 50 172 36 false "no-parent").reportedError =
      some "engine failure" ∧
    (applyLayout false true failEngine .DOWN tIdx tMap ["gp", "p1", "leaf"]
        [] 10 50 50 172 36 false "no-parent").committed = false ∧
    mapGet (applyLayout false true failEngine .DOWN tIdx tMap
        ["gp", "p1", "leaf"] [] 10 50 50 172 36 false "no-parent").nmap
        "p1" = some (fixParentNodeDimensions p1N 300 200) ∧
    mapGet tMap "p1" = some p1N ∧
    fixParentNodeDimensions p1N 300 200 ≠ p1N := by
  exact ⟨rfl, rfl, rfl, rfl, by decide⟩

/-- CLAIM C4 amended: engine failures propagate and are caught, but the
state is not rolled back.  (1) If the full-tree organizer pass rejects,
calculateLayout rejects with the same error.  (2) applyLayout then
catches it: nothing is committed to the host, the failure is surfaced
through the error channel, and the caller receives its own node
references read through the node map as left by the failed request
together with its own edge array contents — the final map is whatever the
partial run produced, not the pre-request state (see the
counterexample). -/
theorem applyLayout_engine_error_caught :
    (∀ (engine : LayoutEngine) (direction : LayoutDirection)
        (idx : ChildIndex) (nmap : NodeMap) (nodeIds : List String)
        (edges : List Edge) (margin ns ls nw nh : Rat)
        (layoutHidden : Bool) (key : String) (e : String),
      (organizeLayoutByTreeDepth (buildNodeTree idx nmap key)
        (convertDirection direction) idx nmap
        (filteredEdgesOf layoutHidden (derefNodes nodeIds nmap) edges)
        margin ns ls nw nh engine layoutHidden key).1 = .error e →
      (calculateLayout true engine direction idx nmap nodeIds edges margin
        ns ls nw nh layoutHidden key).1 = .error e) ∧
    (∀ (engineFound : Bool) (engine : LayoutEngine)
        (direction : LayoutDirection) (idx : ChildIndex) (nmap : NodeMap)
        (nodeIds : List String) (edges : List Edge)
        (margin ns ls nw nh : Rat) (layoutHidden : Bool) (key : String)
        (e : String),
      nodeIds.length ≠ 0 →
      (calculateLayout engineFound engine direction idx nmap nodeIds edges
        margin ns ls nw nh layoutHidden key).1 = .error e →
      applyLayout false engineFound engine direction idx nmap nodeIds edges
          margin ns ls nw nh layoutHidden key =
        ⟨derefNodes nodeIds (calculateLayout engineFound engine direction
            idx nmap nodeIds edges margin ns ls nw nh layoutHidden key).2.1,
          (calculateLayout engineFound engine direction idx nmap nodeIds
            edges margin ns ls nw nh layoutHidden key).2.2,
          (calculateLayout engineFound engine direction idx nmap nodeIds
            edges margin ns ls nw nh layoutHidden key).2.1,
          false, some e⟩) := by
  constructor
  · intro engine direction idx nmap nodeIds edges margin ns ls nw nh
      layoutHidden key e h
    simp only [calculateLayout]
    rw [if_neg (fun hc => Bool.noConfusion hc)]
    simp only [h]
  · intro engineFound engine direction idx nmap nodeIds edges margin ns ls
      nw nh layoutHidden key e hn h
    rcases hC : calculateLayout engineFound engine direction idx nmap
        nodeIds edges margin ns ls nw nh layoutHidden key with ⟨ex, nm2, ed2⟩
    rw [hC] at h
    cases ex with
    | ok res => exact Except.noConfusion h
    | error e2 =>
      have he : e2 = e := Except.error.inj h
      subst he
      simp only [applyLayout, hC, if_neg hn]
      rw [if_neg (fun hc => Bool.noConfusion hc)]

/-- Witness for the amended C4 at the failing fixture: the organizer pass
rejects there, calculateLayout rejects with the same message, and
applyLayout returns the caught-error outcome. -/
theorem applyLayout_engine_error_caught_witness :
    (calculateLayout true failEngine .DOWN tIdx tMap ["gp", "p1", "leaf"]
        [] 10 50 50 172 36 false "no-parent").1 =
      Except.error "engine failure" ∧
    applyLayout false true failEngine .DOWN tIdx tMap ["gp", "p1", "leaf"]
        [] 10 50 50 172 36 false "no-parent" =
      ⟨derefNodes ["gp", "p1", "leaf"] (calculateLayout true failEngine
          .DOWN tIdx tMap ["gp", "p1", "leaf"] [] 10 50 50 172 36 false
          "no-parent").2.1,
        (calculateLayout true failEngine .DOWN tIdx tMap
          ["gp", "p1", "leaf"] [] 10 50 50 172 36 false "no-parent").2.2,
        (calculateLayout true failEngine .DOWN tIdx tMap
          ["gp", "p1", "leaf"] [] 10 50 50 172 36 false "no-parent").2.1,
        false, some "engine failure"⟩ := by
  constructor
  · exact applyLayout_engine_error_caught.1 failEngine .DOWN tIdx tMap
      ["gp", "p1", "leaf"] [] 10 50 50 172 36 false "no-parent"
      "engine failure" rfl
  · exact applyLayout_engine_error_caught.2 true failEngine .DOWN tIdx tMap
      ["gp", "p1", "leaf"] [] 10 50 50 172 36 false "no-parent"
      "engine failure" (by decide) rfl

/-- CLAIM C10: convertDirection and convertDirectionToLayout are mutually
inverse bijections on the four cardinal values: for every LayoutDirection d,
convertDirectionToLayout (convertDirection d) = d, and for every Direction
t, convertDirection (convertDirectionToLayout t) = t. -/
theorem convertDirection_inverse_bijections :
    (∀ d : LayoutDirection, convertDirectionToLayout (convertDirection d) = d) ∧
    (∀ t : Direction, convertDirection (convertDirectionToLayout t) = t) := by
  constructor
  · intro d; cases d <;> rfl
  · intro t; cases t <;> rfl

end RFAL
